import Mathlib

/-!
# Chain import, storage paging and account diffing of `cph/api.go`

A shallow embedding of the administrative and debug endpoints of the
Cypherium full node (`src/cph/api.go`): `hasAllBlocks`, `ImportChain`,
`storageRangeAt`, `GetModifiedAccountsByNumber`, `GetModifiedAccountsByHash`
and `getModifiedAccounts`.

Conventions of the embedding.

* A Go byte slice is a `List Nat`; slices are ordered lexicographically, which
  is the order in which a trie iterator visits its leaves.
* A Go result pair `(value, error)` is a structure with one field per
  component; a `nil` slice or map is the empty list and a `nil` pointer or
  error is `none`.
* An error built with `fmt.Errorf` is a constructor of `Error` carrying the
  values the message is formatted from.
* The chain store, the trie database and the RLP stream belong to the
  cypherBFT library.  The store is an arbitrary state type with the four
  methods the endpoints call; a stream is the list of results its `Decode`
  calls yield before the clean end of input.
* Calls with an effect that a property speaks about (`InsertChain`,
  `trie.NewSecure`) are recorded in a log that is returned with the result.
-/

namespace Cph

/-! ## Data model -/

/-- A Go byte slice. -/
abbrev Bytes := List Nat

/-- The type `common.Hash`: 32 bytes. -/
abbrev Hash := Bytes

/-- The type `common.Address`: 20 bytes. -/
abbrev Address := Bytes

/-- The block type `types.Block`, reduced to what the endpoints read: `Hash()`,
`Number()`, `ParentHash()` and `Root()`. -/
structure Block where
  hash : Hash
  number : Nat
  parentHash : Hash
  root : Hash
deriving DecidableEq, Repr

/-- The height as the code reads it, `NumberU64()` or `Number().Uint64()`: the
low 64 bits of the header number. -/
def Block.NumberU64 (b : Block) : Nat := b.number % 2 ^ 64

/-- The errors the endpoints return.  Each constructor stands for one
`fmt.Errorf` format and carries the formatted values; `lib` is an error of the
library handed on unchanged. -/
inductive Error where
  | lib (cause : String)
  | parse (index : Nat) (cause : String)
  | insert (batch : Nat) (cause : String)
  | startNumNotFound (num : Nat)
  | startHashNotFound (h : Hash)
  | endNumNotFound (num : Nat)
  | endHashNotFound (h : Hash)
  | noParent (number : Nat)
  | invalidRange (startHeight endHeight : Nat)
  | noPreimage (key : Bytes)
deriving DecidableEq, Repr

/-- The methods of `core.BlockChain` the endpoints call, over a store of type
`σ`.  `InsertChain` yields the store it leaves behind and its error, if any. -/
structure ChainStore (σ : Type) where
  HasBlock : σ → Hash → Nat → Bool
  InsertChain : σ → List Block → σ × Option String
  GetBlockByNumber : σ → Nat → Option Block
  GetBlockByHash : σ → Hash → Option Block

/-! ## ImportChain -/

/-- An RLP stream of blocks: the results of the successive `Decode` calls that
do not hit the end of input, a block or a decoding error each.  Once the list
is used up every `Decode` returns `io.EOF`. -/
abbrev BlockStream := List (Except String Block)

/-- The function `hasAllBlocks`. -/
def hasAllBlocks {σ : Type} (ops : ChainStore σ) (chain : σ) (bs : List Block) : Bool :=
  bs.all (fun b => ops.HasBlock chain b.hash b.NumberU64)

/-- How the inner loop of `ImportChain` ends: with the batch, the block counter
and the unread input, or at a decoding error. -/
inductive Load where
  | done (blocks : List Block) (index : Nat) (rest : BlockStream)
  | failed (index : Nat) (cause : String) (rest : BlockStream)

/-- The inner loop of `ImportChain`, `for len(blocks) < cap(blocks)`: decode
into the batch until it is full, the input ends or a block fails to decode. -/
def loadBatch (cap : Nat) : List Block → Nat → BlockStream → Load
  | blocks, index, [] => .done blocks index []
  | blocks, index, r :: rest =>
    if blocks.length < cap then
      match r with
      | .error cause => .failed index cause rest
      | .ok block => loadBatch cap (blocks ++ [block]) (index + 1) rest
    else .done blocks index (r :: rest)

/-- The capacity of the batch buffer, `make([]*types.Block, 0, 2500)`. -/
def batchCap : Nat := 2500

/-- What a run of `ImportChain` leaves behind: the returned pair `(ok, err)`,
the store, the arguments of the `InsertChain` calls in the order made, and the
input not yet read. -/
structure ImportResult (σ : Type) where
  ok : Bool
  err : Option Error
  chain : σ
  inserted : List (List Block)
  rest : BlockStream

/-- The outer loop of `ImportChain`, `for batch := 0; ; batch++`, one round per
unit of fuel; `none` when the fuel runs out. -/
def importBatches {σ : Type} (ops : ChainStore σ) :
    Nat → σ → List (List Block) → Nat → Nat → BlockStream → Option (ImportResult σ)
  | 0, _, _, _, _, _ => none
  | fuel + 1, chain, inserted, batch, index, stream =>
    match loadBatch batchCap [] index stream with
    | .failed i cause rest => some ⟨false, some (.parse i cause), chain, inserted, rest⟩
    | .done blocks index' rest =>
      if blocks.length = 0 then some ⟨true, none, chain, inserted, rest⟩
      else if hasAllBlocks ops chain blocks then
        importBatches ops fuel chain inserted (batch + 1) index' rest
      else
        match ops.InsertChain chain blocks with
        | (chain', some cause) =>
          some ⟨false, some (.insert batch cause), chain', inserted ++ [blocks], rest⟩
        | (chain', none) =>
          importBatches ops fuel chain' (inserted ++ [blocks]) (batch + 1) index' rest

/-- The method `ImportChain`.  `source` is the outcome of opening the file (and
its gzip reader): an error, or the stream to import.  Every round but the last
reads at least one block, so one round per stream element and one more
suffice. -/
def ImportChain {σ : Type} (ops : ChainStore σ) (chain : σ)
    (source : Except String BlockStream) : Option (ImportResult σ) :=
  match source with
  | .error cause => some ⟨false, some (.lib cause), chain, [], []⟩
  | .ok stream => importBatches ops (stream.length + 1) chain [] 0 0 stream

/-- The batches in the words of the spec: the consecutive chunks of `cap`
blocks of the decoded sequence, the last one shorter when the length is no
multiple of `cap`; chunk `n` is what follows the first `n * cap` blocks, `cap`
blocks at most. -/
def chunks (cap : Nat) (blocks : List Block) : List (List Block) :=
  (List.range ((blocks.length + cap - 1) / cap)).map
    (fun n => (blocks.drop (n * cap)).take cap)

/-- The batching rule in the words of the spec, over the chunks still to come:
a chunk whose blocks are all in the store at its membership check is discarded;
any other chunk is handed whole to `InsertChain`, once, and the rule goes on in
the store the call leaves.  The result is the final store and the chunks
inserted, in order, or `none` when an `InsertChain` call fails. -/
def batchingRule {σ : Type} (ops : ChainStore σ) :
    σ → List (List Block) → List (List Block) → Option (σ × List (List Block))
  | chain, inserted, [] => some (chain, inserted)
  | chain, inserted, chunk :: rest =>
    if hasAllBlocks ops chain chunk then batchingRule ops chain inserted rest
    else
      match ops.InsertChain chain chunk with
      | (chain', none) => batchingRule ops chain' (inserted ++ [chunk]) rest
      | (_, some _) => none

/-! ### A store for examples -/

/-- A store that is the list of its blocks. -/
def listStore : ChainStore (List Block) where
  HasBlock := fun chain h n => chain.any (fun b => b.hash == h && b.NumberU64 == n)
  InsertChain := fun chain bs => (chain ++ bs, none)
  GetBlockByNumber := fun chain n => chain.find? (fun b => b.NumberU64 == n)
  GetBlockByHash := fun chain h => chain.find? (fun b => b.hash == h)

/-- A store that refuses every insertion. -/
def frozenStore : ChainStore (List Block) where
  HasBlock := listStore.HasBlock
  InsertChain := fun chain _ => (chain, some "known bad block")
  GetBlockByNumber := listStore.GetBlockByNumber
  GetBlockByHash := listStore.GetBlockByHash

/-- A block of height `n` whose hash is the single byte `n` and whose parent is
the block of height `n - 1`. -/
def mkBlock (n : Nat) : Block := ⟨[n], n, [n - 1], [100 + n]⟩

/-! ## Hashes, addresses and tries -/

/-- Modelled from the spec: `common.BytesToHash` and `common.BytesToAddress`
belong to the cypherBFT library, not to this repository, and the spec fixes
their widths only ("a 256-bit hash", "a 160-bit identifier").  Both are the
library's `SetBytes` on an array of `n` bytes (`n = 32`, `n = 20`): a slice
longer than `n` bytes loses its leading bytes, a shorter one is copied to the
right end of the zeroed array.  All that the theorems below rely on is that a
slice of exactly `n` bytes is returned unchanged. -/
def setBytes (n : Nat) (b : Bytes) : Bytes :=
  List.replicate (n - (b.drop (b.length - n)).length) 0 ++ b.drop (b.length - n)

/-- The function `common.BytesToHash`. -/
def BytesToHash (b : Bytes) : Hash := setBytes 32 b

/-- The function `common.BytesToAddress`. -/
def BytesToAddress (b : Bytes) : Address := setBytes 20 b

/-- A leaf of a trie: internal key and raw value. -/
abbrev Leaf := Bytes × Bytes

/-- A trie as the endpoints see it (`state.Trie`, `trie.SecureTrie`): its leaves
in the order an iterator visits them, and `GetKey`, which gives the recorded
preimage of an internal key, `none` standing for `nil`. -/
structure Trie where
  leaves : List Leaf
  GetKey : Bytes → Option Bytes

/-- Modelled from the spec: the library iterator
`trie.NewIterator(st.NodeIterator(start))`, which is not part of this
repository.  "`seek(startKey)` -> cursor positioned at first key ≥ startKey";
the list is what the successive `Next` calls yield, after which `Next` keeps
returning false. -/
def Trie.seek (st : Trie) (start : Bytes) : List Leaf :=
  st.leaves.dropWhile (fun e => decide (e.1 < start))

/-- The tries the endpoints are handed: the internal keys are 32-byte hashes
and the leaves come in strictly ascending key order. -/
def Trie.WF (st : Trie) : Prop :=
  (∀ e ∈ st.leaves, e.1.length = 32) ∧ st.leaves.Pairwise (fun a b => a.1 < b.1)

/-! ## storageRangeAt -/

/-- The type `storageEntry`. -/
structure storageEntry where
  Key : Option Hash
  Value : Hash
deriving DecidableEq, Repr

/-- The type `storageMap`, a Go map, as the list of its bindings in the order
their keys were first assigned. -/
abbrev storageMap := List (Hash × storageEntry)

/-- The assignment `m[k] = e` of a Go map. -/
def storageMap.set (m : storageMap) (k : Hash) (e : storageEntry) : storageMap :=
  if m.any (fun p => p.1 == k) then m.map (fun p => if p.1 == k then (k, e) else p)
  else m ++ [(k, e)]

/-- The type `StorageRangeResult`; the zero value `StorageRangeResult{}` has the
`nil` map and the `nil` pointer. -/
structure StorageRangeResult where
  Storage : storageMap
  NextKey : Option Hash
deriving DecidableEq, Repr

/-- The loop `for i := 0; i < maxResult && it.Next(); i++` of `storageRangeAt`.
`split` is `rlp.Split` reduced to the content and the error it returns.  The
result is the map and what is left of the iterator, or the error of `split`. -/
def storageRangeLoop (split : Bytes → Except String Bytes) (st : Trie) (maxResult : Int) :
    Nat → List Leaf → storageMap → Except String (storageMap × List Leaf)
  | _, [], m => .ok (m, [])
  | i, (k, v) :: it, m =>
    if (i : Int) < maxResult then
      match split v with
      | .error cause => .error cause
      | .ok content =>
        storageRangeLoop split st maxResult (i + 1) it
          (m.set (BytesToHash k) ⟨(st.GetKey k).map BytesToHash, BytesToHash content⟩)
    else .ok (m, (k, v) :: it)

/-- The function `storageRangeAt`, as the pair it returns. -/
def storageRangeAt (split : Bytes → Except String Bytes) (st : Trie) (start : Bytes)
    (maxResult : Int) : StorageRangeResult × Option Error :=
  match storageRangeLoop split st maxResult 0 (st.seek start) [] with
  | .error cause => (⟨[], none⟩, some (.lib cause))
  | .ok (m, []) => (⟨m, none⟩, none)
  | .ok (m, (k, _) :: _) => (⟨m, some (BytesToHash k)⟩, none)

/-- The content of a raw value that decodes (the empty slice otherwise). -/
def contentOf (split : Bytes → Except String Bytes) (v : Bytes) : Bytes :=
  match split v with
  | .ok content => content
  | .error _ => []

/-- The entry the loop of `storageRangeAt` builds for a leaf whose value
decodes: the value as a hash, and the preimage of the key as a hash when one is
recorded. -/
def entryOf (split : Bytes → Except String Bytes) (st : Trie) (e : Leaf) : storageEntry :=
  ⟨(st.GetKey e.1).map BytesToHash, BytesToHash (contentOf split e.2)⟩

/-- The leaves of a trie whose internal key is at least `start`, in iteration
order: the range a call of `storageRangeAt` from `start` pages through. -/
def Trie.range (st : Trie) (start : Bytes) : List Leaf :=
  st.leaves.filter (fun e => decide (start ≤ e.1))

/-- Whether a raw value decodes. -/
def decodes (split : Bytes → Except String Bytes) (v : Bytes) : Bool :=
  match split v with
  | .ok _ => true
  | .error _ => false

/-- The error of a raw value that fails to decode (the empty message
otherwise). -/
def errorOf (split : Bytes → Except String Bytes) (v : Bytes) : String :=
  match split v with
  | .ok _ => ""
  | .error cause => cause

/-- How a paged enumeration ends: the pages in the order received, or the error
of the call that failed. -/
inductive Paging where
  | pages (ps : List StorageRangeResult)
  | failed (err : Error)
deriving DecidableEq, Repr

/-- Modelled from the spec: the client of `storageRangeAt`, which is not part of
this repository.  "total enumeration by repeated calls with `nextKey` as the
next `startKey`": call, keep the page, and call again from `NextKey` until
`NextKey` is `nil`; one call per unit of fuel, `none` when the fuel runs out. -/
def enumerate (split : Bytes → Except String Bytes) (st : Trie) (maxResult : Int) :
    Nat → Bytes → Option Paging
  | 0, _ => none
  | fuel + 1, start =>
    match storageRangeAt split st start maxResult with
    | (_, some err) => some (.failed err)
    | (page, none) =>
      match page.NextKey with
      | none => some (.pages [page])
      | some next =>
        match enumerate split st maxResult fuel next with
        | some (.pages ps) => some (.pages (page :: ps))
        | other => other

/-! ## getModifiedAccounts -/

/-- The functions of the trie package that `getModifiedAccounts` calls:
`trie.NewSecure` on the node database, by state root, and
`trie.NewDifferenceIterator` followed by `trie.NewIterator`, from the leaves of
the old and the new trie to the leaves it yields. -/
structure TrieLib where
  NewSecure : Hash → Except String Trie
  NewDifferenceIterator : List Leaf → List Leaf → List Leaf

/-- Modelled from the spec: the difference iterator of the trie package, which
is not part of this repository.  "at leaves, emit the `new` side's entry if its
value differs from, or has no counterpart in, `old`", "in internal-key
order". -/
def differenceIterator (old new : List Leaf) : List Leaf :=
  new.filter (fun e => old.lookup e.1 != some e.2)

/-- What a call of `getModifiedAccounts` leaves behind: the returned pair
`(dirty, err)` and the state roots handed to `trie.NewSecure`, in the order of
the calls. -/
structure AccountsResult where
  dirty : List Address
  err : Option Error
  opened : List Hash
deriving DecidableEq, Repr

/-- The loop `for iter.Next()` of `getModifiedAccounts`: the addresses
collected, or the first internal key without a preimage. -/
def collectDirty (newTrie : Trie) : List Leaf → List Address → Except Bytes (List Address)
  | [], dirty => .ok dirty
  | (k, _) :: it, dirty =>
    match newTrie.GetKey k with
    | none => .error k
    | some key => collectDirty newTrie it (dirty ++ [BytesToAddress key])

/-- The method `getModifiedAccounts`. -/
def getModifiedAccounts (lib : TrieLib) (startBlock endBlock : Block) : AccountsResult :=
  if startBlock.NumberU64 ≥ endBlock.NumberU64 then
    ⟨[], some (.invalidRange startBlock.NumberU64 endBlock.NumberU64), []⟩
  else
    match lib.NewSecure startBlock.root with
    | .error cause => ⟨[], some (.lib cause), [startBlock.root]⟩
    | .ok oldTrie =>
      match lib.NewSecure endBlock.root with
      | .error cause => ⟨[], some (.lib cause), [startBlock.root, endBlock.root]⟩
      | .ok newTrie =>
        match collectDirty newTrie
            (lib.NewDifferenceIterator (oldTrie.seek []) (newTrie.seek [])) [] with
        | .error key => ⟨[], some (.noPreimage key), [startBlock.root, endBlock.root]⟩
        | .ok dirty => ⟨dirty, none, [startBlock.root, endBlock.root]⟩

/-- The method `GetModifiedAccountsByNumber`; `endNum = none` is the `nil`
pointer. -/
def GetModifiedAccountsByNumber {σ : Type} (ops : ChainStore σ) (chain : σ) (lib : TrieLib)
    (startNum : Nat) (endNum : Option Nat) : AccountsResult :=
  match ops.GetBlockByNumber chain startNum with
  | none => ⟨[], some (.startNumNotFound startNum), []⟩
  | some startBlock =>
    match endNum with
    | none =>
      match ops.GetBlockByHash chain startBlock.parentHash with
      | none => ⟨[], some (.noParent startBlock.number), []⟩
      | some parent => getModifiedAccounts lib parent startBlock
    | some n =>
      match ops.GetBlockByNumber chain n with
      | none => ⟨[], some (.endNumNotFound n), []⟩
      | some endBlock => getModifiedAccounts lib startBlock endBlock

/-- The method `GetModifiedAccountsByHash`; `endHash = none` is the `nil`
pointer. -/
def GetModifiedAccountsByHash {σ : Type} (ops : ChainStore σ) (chain : σ) (lib : TrieLib)
    (startHash : Hash) (endHash : Option Hash) : AccountsResult :=
  match ops.GetBlockByHash chain startHash with
  | none => ⟨[], some (.startHashNotFound startHash), []⟩
  | some startBlock =>
    match endHash with
    | none =>
      match ops.GetBlockByHash chain startBlock.parentHash with
      | none => ⟨[], some (.noParent startBlock.number), []⟩
      | some parent => getModifiedAccounts lib parent startBlock
    | some h =>
      match ops.GetBlockByHash chain h with
      | none => ⟨[], some (.endHashNotFound h), []⟩
      | some endBlock => getModifiedAccounts lib startBlock endBlock

/-! ### Tries for examples -/

/-- The 32-byte key whose last byte is `n`. -/
def key32 (n : Nat) : Bytes := List.replicate 31 0 ++ [n]

/-- The 20-byte address whose last byte is `n`. -/
def addr20 (n : Nat) : Bytes := List.replicate 19 0 ++ [n]

/-- A splitter for examples: a value is its content, the empty value is
malformed. -/
def splitAny (v : Bytes) : Except String Bytes :=
  if v = [] then .error "unexpected EOF" else .ok v

/-- A storage trie with the keys 1, 2 and 3; only key 1 has a preimage. -/
def trie3 : Trie where
  leaves := [(key32 1, [11]), (key32 2, [12]), (key32 3, [13])]
  GetKey := fun k => if k = key32 1 then some (key32 201) else none

/-- A storage trie with the single key 1. -/
def trie1 : Trie where
  leaves := [(key32 1, [11])]
  GetKey := fun _ => none

/-- The trie package with the difference iterator of the spec, over a node
database given by what `trie.NewSecure` returns for each state root. -/
def specLib (NewSecure : Hash → Except String Trie) : TrieLib where
  NewSecure := NewSecure
  NewDifferenceIterator := differenceIterator

/-- Opening a trie in a database given as the list of its tries by root. -/
def openIn (db : List (Hash × Trie)) (root : Hash) : Except String Trie :=
  match db.lookup root with
  | some t => .ok t
  | none => .error "missing trie node"

/-- A storage trie with the keys 1, 2 and 3 whose second value is malformed
for `splitAny`. -/
def trieBad : Trie where
  leaves := [(key32 1, [11]), (key32 2, []), (key32 3, [13])]
  GetKey := fun _ => none

/-- A library over a database given as the list of its tries by root, with the
difference iterator of the spec. -/
def listLib (db : List (Hash × Trie)) : TrieLib := specLib (openIn db)

/-- An account trie for examples: the accounts 7 and 8 have their addresses
recorded as preimages of their keys, any other key has none. -/
def acctTrie (leaves : List Leaf) : Trie where
  leaves := leaves
  GetKey := fun k =>
    if k = key32 7 then some (addr20 7) else if k = key32 8 then some (addr20 8) else none

/-- A database for examples, by state root: no account (root `[100]`); account
7 alone; then account 8 added; then the record of account 8 changed; then an account 9 written without
a preimage. -/
def acctDb : List (Hash × Trie) :=
  [([100], acctTrie []),
   ([101], acctTrie [(key32 7, [1])]),
   ([102], acctTrie [(key32 7, [1]), (key32 8, [5])]),
   ([103], acctTrie [(key32 7, [1]), (key32 8, [6])]),
   ([104], acctTrie [(key32 7, [1]), (key32 8, [6]), (key32 9, [2])])]

/-- A database for examples, by state root: the record of account 8 goes from
`[5]` to `[3]` and back to `[5]`. -/
def revertDb : List (Hash × Trie) :=
  [([101], acctTrie [(key32 8, [5])]),
   ([102], acctTrie [(key32 8, [3])]),
   ([103], acctTrie [(key32 8, [5])])]

/-- A database for examples, by state root: account 8 is there, is there, and
is deleted. -/
def deleteDb : List (Hash × Trie) :=
  [([101], acctTrie [(key32 8, [5])]),
   ([102], acctTrie [(key32 8, [5])]),
   ([103], acctTrie [])]

/-- The blocks of heights 1 to `n`, block `k` with state root `[100 + k]` and
parent `k - 1`. -/
def blocksUpTo (n : Nat) : List Block := (List.range n).map (fun i => mkBlock (i + 1))

/-- A chain for examples: the blocks of heights 1 to 10. -/
def chain10 : List Block := blocksUpTo 10

/-! ## Lemmas on the batch loop -/

theorem loadBatch_ok_append (cap : Nat) (bs : List Block) :
    ∀ (acc : List Block) (index : Nat) (tail : BlockStream),
      acc.length + bs.length ≤ cap →
      loadBatch cap acc index (bs.map Except.ok ++ tail)
        = loadBatch cap (acc ++ bs) (index + bs.length) tail := by
  induction bs with
  | nil => intro acc index tail _; simp
  | cons b bs ih =>
    intro acc index tail h
    simp only [List.length_cons] at h
    have hlt : acc.length < cap := by omega
    have step := ih (acc ++ [b]) (index + 1) tail (by simp; omega)
    simp only [List.map_cons, List.cons_append, loadBatch, hlt, if_true]
    simpa [Nat.add_comm, Nat.add_left_comm] using step

theorem loadBatch_full (cap : Nat) (acc : List Block) (index : Nat) (s : BlockStream)
    (h : cap ≤ acc.length) : loadBatch cap acc index s = .done acc index s := by
  cases s with
  | nil => simp [loadBatch]
  | cons r rest =>
    have : ¬ acc.length < cap := by omega
    simp [loadBatch, this]

/-- One round of loading: a chunk of decodable blocks that fills the buffer, or
that ends the input, is the batch. -/
theorem loadBatch_chunk (cap : Nat) (bs : List Block) (index : Nat) (tail : BlockStream)
    (hlen : bs.length ≤ cap) (hcut : bs.length = cap ∨ tail = []) :
    loadBatch cap [] index (bs.map Except.ok ++ tail) = .done bs (index + bs.length) tail := by
  rw [loadBatch_ok_append cap bs [] index tail (by simpa using hlen)]
  rcases hcut with h | h
  · exact loadBatch_full cap _ _ _ (by simp [h])
  · subst h; simp [loadBatch]

/-- The first batch of a stream of decodable blocks is its first `cap` blocks. -/
theorem loadBatch_take (cap : Nat) (blocks : List Block) (index : Nat) :
    loadBatch cap [] index (blocks.map Except.ok)
      = .done (blocks.take cap) (index + (blocks.take cap).length)
          ((blocks.drop cap).map Except.ok) := by
  have hsplit : blocks.map Except.ok
      = (blocks.take cap).map (Except.ok : Block → Except String Block)
          ++ (blocks.drop cap).map Except.ok := by
    rw [← List.map_append, List.take_append_drop]
  conv_lhs => rw [hsplit]
  apply loadBatch_chunk
  · simp
  · by_cases h : cap ≤ blocks.length
    · left; simp [h]
    · right
      have : blocks.drop cap = [] := List.drop_eq_nil_of_le (by omega)
      simp [this]

theorem hasAllBlocks_of_forall {σ : Type} (ops : ChainStore σ) (chain : σ) (bs : List Block)
    (h : ∀ b ∈ bs, ops.HasBlock chain b.hash b.NumberU64 = true) :
    hasAllBlocks ops chain bs = true := by
  simpa [hasAllBlocks] using h

/-- The outer loop on a stream of blocks that are all in the store. -/
theorem importBatches_present {σ : Type} (ops : ChainStore σ) (chain : σ) :
    ∀ (fuel : Nat) (blocks : List Block) (inserted : List (List Block)) (batch index : Nat),
      blocks.length < fuel →
      (∀ b ∈ blocks, ops.HasBlock chain b.hash b.NumberU64 = true) →
      importBatches ops fuel chain inserted batch index (blocks.map Except.ok)
        = some ⟨true, none, chain, inserted, []⟩ := by
  intro fuel
  induction fuel with
  | zero => intro blocks _ _ _ h; omega
  | succ fuel ih =>
    intro blocks inserted batch index hfuel hall
    rw [importBatches, loadBatch_take]
    cases blocks with
    | nil => simp
    | cons b bs =>
      have hne : ¬ (List.take batchCap (b :: bs)).length = 0 := by
        simp [batchCap]
      have hhas : hasAllBlocks ops chain (List.take batchCap (b :: bs)) = true :=
        hasAllBlocks_of_forall ops chain _ (fun x hx => hall x (List.mem_of_mem_take hx))
      simp only [hne, if_false, hhas, if_true]
      apply ih
      · simp only [List.length_drop, List.length_cons, batchCap] at hfuel ⊢
        omega
      · intro x hx
        exact hall x (List.mem_of_mem_drop hx)

/-- C1. Importing a stream whose blocks all decode and are all in the store
already (whatever its length, also beyond one batch of 2500) calls
`InsertChain` not once, leaves the store as it was, reads the whole stream and
returns `(true, nil)`. -/
theorem importChain_already_imported {σ : Type} (ops : ChainStore σ) (chain : σ)
    (blocks : List Block)
    (hpresent : ∀ b ∈ blocks, ops.HasBlock chain b.hash b.NumberU64 = true) :
    ImportChain ops chain (.ok (blocks.map Except.ok))
      = some ⟨true, none, chain, [], []⟩ := by
  unfold ImportChain
  exact importBatches_present ops chain _ blocks [] 0 0 (by simp) hpresent

/-- C1 at a store holding blocks 1, 2 and 3, importing the stream of the three. -/
theorem importChain_already_imported_witness :
    (∀ b ∈ [mkBlock 1, mkBlock 2, mkBlock 3],
        listStore.HasBlock [mkBlock 1, mkBlock 2, mkBlock 3] b.hash b.NumberU64 = true)
    ∧ ImportChain listStore [mkBlock 1, mkBlock 2, mkBlock 3]
        (.ok ([mkBlock 1, mkBlock 2, mkBlock 3].map Except.ok))
      = some ⟨true, none, [mkBlock 1, mkBlock 2, mkBlock 3], [], []⟩ :=
  ⟨by decide, importChain_already_imported listStore _ _ (by decide)⟩

/-! ## Lemmas on byte slices and sorted leaves -/

theorem setBytes_of_length (n : Nat) (b : Bytes) (h : b.length = n) : setBytes n b = b := by
  simp [setBytes, h]

theorem length_setBytes (n : Nat) (b : Bytes) : (setBytes n b).length = n := by
  simp only [setBytes, List.length_append, List.length_replicate, List.length_drop]
  omega

theorem not_lt_nil (a : Bytes) : ¬ a < [] :=
  List.Lex.not_nil_right _ a

theorem seek_nil (st : Trie) : st.seek [] = st.leaves := by
  unfold Trie.seek
  induction st.leaves with
  | nil => rfl
  | cons e l _ => simp [List.dropWhile, not_lt_nil]

/-- On leaves in ascending key order, seeking keeps exactly the leaves whose key
is at least the start key. -/
theorem dropWhile_eq_filter (start : Bytes) :
    ∀ (l : List Leaf), l.Pairwise (fun a b => a.1 < b.1) →
      l.dropWhile (fun e => decide (e.1 < start)) = l.filter (fun e => decide (start ≤ e.1)) := by
  intro l
  induction l with
  | nil => intro _; rfl
  | cons a l ih =>
    intro h
    rw [List.pairwise_cons] at h
    by_cases hlt : a.1 < start
    · have hnle : ¬ start ≤ a.1 := not_le.mpr hlt
      simp [List.dropWhile, List.filter, hlt, hnle, ih h.2]
    · have hle : start ≤ a.1 := not_lt.mp hlt
      have hall : ∀ b ∈ l, decide (start ≤ b.1) = true := by
        intro b hb
        exact decide_eq_true (le_of_lt (lt_of_le_of_lt hle (h.1 b hb)))
      simp [List.dropWhile, List.filter, hlt, hle, List.filter_eq_self.mpr hall]

/-- Seeking to the key of a leaf of a sorted trie lands on that leaf. -/
theorem dropWhile_at_leaf (pre : List Leaf) (e : Leaf) (post : List Leaf)
    (h : (pre ++ e :: post).Pairwise (fun a b => a.1 < b.1)) :
    (pre ++ e :: post).dropWhile (fun x => decide (x.1 < e.1)) = e :: post := by
  induction pre with
  | nil => simp [List.dropWhile]
  | cons a pre ih =>
    rw [List.cons_append, List.pairwise_cons] at h
    have ha : a.1 < e.1 := h.1 e (by simp)
    simp [List.dropWhile, ha, ih h.2]

theorem seek_eq_filter (st : Trie) (hwf : st.WF) (start : Bytes) :
    st.seek start = st.leaves.filter (fun e => decide (start ≤ e.1)) :=
  dropWhile_eq_filter start st.leaves hwf.2

/-! ## Lemmas on storageRangeAt -/

theorem storageMap_set_fresh (m : storageMap) (k : Hash) (e : storageEntry)
    (h : k ∉ m.map Prod.fst) : m.set k e = m ++ [(k, e)] := by
  have : m.any (fun p => p.1 == k) = false := by
    rw [Bool.eq_false_iff]
    intro hany
    rw [List.any_eq_true] at hany
    obtain ⟨p, hp, hk⟩ := hany
    exact h (List.mem_map.mpr ⟨p, hp, by simpa using hk⟩)
  simp [storageMap.set, this]

/-- The loop of `storageRangeAt`: when the values it meets decode and the keys
it assigns are new to the map and distinct, it appends one binding per leaf,
for as many leaves as the counter allows, and leaves the others unread. -/
theorem storageRangeLoop_ok (split : Bytes → Except String Bytes) (st : Trie)
    (maxResult : Int) :
    ∀ (it : List Leaf) (i : Nat) (m : storageMap),
      (∀ e ∈ it.take (maxResult.toNat - i), ∃ c, split e.2 = .ok c) →
      (m.map Prod.fst ++ (it.take (maxResult.toNat - i)).map (fun e => BytesToHash e.1)).Nodup →
      storageRangeLoop split st maxResult i it m
        = .ok (m ++ (it.take (maxResult.toNat - i)).map
                  (fun e => (BytesToHash e.1, entryOf split st e)),
               it.drop (maxResult.toNat - i)) := by
  intro it
  induction it with
  | nil => intro i m _ _; simp [storageRangeLoop]
  | cons e it ih =>
    intro i m hdec hnd
    obtain ⟨k, v⟩ := e
    by_cases hlt : (i : Int) < maxResult
    · have hi : i < maxResult.toNat := Int.lt_toNat.mpr hlt
      have hsub : maxResult.toNat - i = (maxResult.toNat - (i + 1)) + 1 := by omega
      rw [hsub] at hdec hnd ⊢
      simp only [List.take_succ_cons, List.drop_succ_cons, List.map_cons] at hdec hnd ⊢
      obtain ⟨c, hc⟩ := hdec (k, v) (by simp)
      have hfresh : BytesToHash k ∉ m.map Prod.fst := by
        intro hmem
        have := (List.nodup_append.mp hnd).2.2
        exact this hmem (by simp)
      have hcontent : contentOf split v = c := by simp [contentOf, hc]
      simp only [storageRangeLoop, hlt, if_true, hc]
      rw [storageMap_set_fresh m _ _ hfresh]
      rw [ih (i + 1) _ (fun x hx => hdec x (by simp [hx])) (by simpa using hnd)]
      simp [entryOf, hcontent]
    · have hi : maxResult.toNat - i = 0 := by
        have : ¬ i < maxResult.toNat := fun h => hlt (Int.lt_toNat.mp h)
        omega
      simp [storageRangeLoop, hlt, hi]

theorem keys_nodup_of_sorted (l : List Leaf) (h : l.Pairwise (fun a b => a.1 < b.1)) :
    (l.map Prod.fst).Nodup := by
  have : (l.map Prod.fst).Pairwise (fun a b => a < b) := List.pairwise_map.mpr h
  exact this.imp (fun hab => ne_of_lt hab)

theorem map_key_eq_of_length (l : List Leaf) (h : ∀ e ∈ l, e.1.length = 32)
    (f : Leaf → storageEntry) :
    l.map (fun e => (BytesToHash e.1, f e)) = l.map (fun e => (e.1, f e)) := by
  apply List.map_congr_left
  intro e he
  simp [BytesToHash, setBytes_of_length 32 e.1 (h e he)]

/-- One call of `storageRangeAt` on a well-formed trie, in terms of the
iterator: the page is what the iterator yields first, `maxResult` leaves at
most, and `NextKey` is the key of what it yields next. -/
theorem storageRangeAt_page (split : Bytes → Except String Bytes) (st : Trie) (hwf : st.WF)
    (start : Bytes) (maxResult : Int)
    (hdec : ∀ e ∈ (st.seek start).take maxResult.toNat, ∃ c, split e.2 = .ok c) :
    storageRangeAt split st start maxResult
      = (⟨((st.seek start).take maxResult.toNat).map (fun e => (e.1, entryOf split st e)),
          ((st.seek start).drop maxResult.toNat).head?.map Prod.fst⟩, none) := by
  have hsub : List.Sublist ((st.seek start).take maxResult.toNat) st.leaves :=
    (List.take_sublist _ _).trans (List.dropWhile_suffix _).sublist
  have hlen : ∀ e ∈ (st.seek start).take maxResult.toNat, e.1.length = 32 :=
    fun e he => hwf.1 e (hsub.subset he)
  have hkeys : ((st.seek start).take maxResult.toNat).map (fun e => BytesToHash e.1)
      = ((st.seek start).take maxResult.toNat).map Prod.fst := by
    apply List.map_congr_left
    intro e he
    simp [BytesToHash, setBytes_of_length 32 e.1 (hlen e he)]
  have hnd : (([] : storageMap).map Prod.fst
      ++ ((st.seek start).take (maxResult.toNat - 0)).map (fun e => BytesToHash e.1)).Nodup := by
    simp only [List.map_nil, List.nil_append, Nat.sub_zero]
    rw [hkeys]
    exact keys_nodup_of_sorted _ (hwf.2.sublist hsub)
  have hloop := storageRangeLoop_ok split st maxResult (st.seek start) 0 []
    (by simpa using hdec) hnd
  simp only [Nat.sub_zero, List.nil_append] at hloop
  rw [map_key_eq_of_length _ hlen] at hloop
  unfold storageRangeAt
  rw [hloop]
  cases hd : (st.seek start).drop maxResult.toNat with
  | nil => simp
  | cons e rest =>
    obtain ⟨k, v⟩ := e
    have hk : (k, v) ∈ st.leaves :=
      (List.dropWhile_suffix _).subset (List.mem_of_mem_drop (hd ▸ List.mem_cons_self _ _))
    simp [BytesToHash, setBytes_of_length 32 k (hwf.1 (k, v) hk)]

theorem exists_ok_of_decodes (split : Bytes → Except String Bytes) (v : Bytes)
    (h : decodes split v = true) : ∃ c, split v = .ok c := by
  unfold decodes at h
  cases hs : split v with
  | ok c => exact ⟨c, rfl⟩
  | error e => simp [hs] at h

theorem getLast?_of_suffix_ne_nil {α : Type} (l r : List α) (h : r <:+ l) (hr : r ≠ []) :
    l.getLast? = r.getLast? := by
  obtain ⟨t, rfl⟩ := h
  rw [List.getLast?_append]
  cases r with
  | nil => exact absurd rfl hr
  | cons a r => simp [List.getLast?_cons_cons, List.getLast?]

/-- In a list without repetition the last element is among the first `n` only
when the first `n` are all there is. -/
theorem length_le_of_getLast_mem_take {α : Type} (l : List α) (n : Nat) (x : α)
    (hnd : l.Nodup) (hlast : l.getLast? = some x) (hx : x ∈ l.take n) : l.length ≤ n := by
  by_contra hlt
  have hlt : n < l.length := not_le.mp hlt
  have hdrop : l.drop n ≠ [] := by
    intro h
    have := List.drop_eq_nil_iff.mp h
    omega
  have hsplit : l.take n ++ l.drop n = l := List.take_append_drop n l
  have hlast2 : (l.drop n).getLast? = some x := by
    rw [← getLast?_of_suffix_ne_nil l (l.drop n) (List.drop_suffix n l) hdrop]
    exact hlast
  have hx2 : x ∈ l.drop n := List.mem_of_mem_getLast? hlast2
  rw [← hsplit] at hnd
  exact (List.nodup_append.mp hnd).2.2 hx hx2

/-- C7 (amended). On a well-formed storage trie, for every start key and
`maxResult`, when the values of the page decode: the call returns no error;
`Storage` holds exactly the first `min (max maxResult 0) n` of the `n` leaves
with internal key at least `start`, in cursor order and keyed by internal key,
so never more than `max maxResult 0` entries; `NextKey` is the internal key of
the leaf right after the page when there is one; and `NextKey` is nil exactly
when `Storage` includes the last key of the trie or no leaf has a key at least
`start`. -/
theorem storageRangeAt_contents (split : Bytes → Except String Bytes) (st : Trie)
    (hwf : st.WF) (start : Bytes) (maxResult : Int)
    (hdec : ∀ e ∈ (st.range start).take (min maxResult.toNat (st.range start).length),
      decodes split e.2 = true) :
    (storageRangeAt split st start maxResult).2 = none
    ∧ (storageRangeAt split st start maxResult).1.Storage
        = ((st.range start).take (min maxResult.toNat (st.range start).length)).map
            (fun e => (e.1, entryOf split st e))
    ∧ (storageRangeAt split st start maxResult).1.Storage.length
        = min maxResult.toNat (st.range start).length
    ∧ ((storageRangeAt split st start maxResult).1.Storage.length : Int) ≤ max maxResult 0
    ∧ (storageRangeAt split st start maxResult).1.NextKey
        = ((st.range start)[min maxResult.toNat (st.range start).length]?).map Prod.fst
    ∧ ((storageRangeAt split st start maxResult).1.NextKey = none
        ↔ st.range start = []
          ∨ ∃ last, st.leaves.getLast? = some last
              ∧ last.1 ∈ (storageRangeAt split st start maxResult).1.Storage.map Prod.fst) := by
  have hseek : st.seek start = st.range start := seek_eq_filter st hwf start
  have htake : (st.range start).take (min maxResult.toNat (st.range start).length)
      = (st.range start).take maxResult.toNat := by
    rw [List.take_eq_take]
    simp
  rw [htake] at hdec
  have hpage := storageRangeAt_page split st hwf start maxResult
    (by rw [hseek]; exact fun e he => exists_ok_of_decodes split e.2 (hdec e he))
  rw [hseek] at hpage
  have hsuffix : st.range start <:+ st.leaves := hseek ▸ List.dropWhile_suffix _
  have hnd : ((st.range start).map Prod.fst).Nodup :=
    keys_nodup_of_sorted _ (hwf.2.sublist hsuffix.sublist)
  rw [hpage, htake]
  refine ⟨rfl, rfl, by simp, ?_, ?_, ?_⟩
  · simp only [List.length_map, List.length_take]
    have h1 : min maxResult.toNat (st.range start).length ≤ maxResult.toNat := Nat.min_le_left _ _
    have h2 : (maxResult.toNat : Int) = max maxResult 0 := Int.toNat_eq_max maxResult
    omega
  · simp only [List.head?_drop]
    by_cases h : maxResult.toNat ≤ (st.range start).length
    · rw [min_eq_left h]
    · have h1 : (st.range start).length ≤ maxResult.toNat := by omega
      rw [min_eq_right h1, List.getElem?_eq_none h1, List.getElem?_eq_none (le_refl _)]
  · simp only [List.head?_drop, Option.map_eq_none', List.getElem?_eq_none_iff,
      List.map_map]
    constructor
    · intro hle
      by_cases hnil : st.range start = []
      · exact Or.inl hnil
      · right
        obtain ⟨last, hlast⟩ : ∃ x, (st.range start).getLast? = some x := by
          cases hr : (st.range start).getLast? with
          | none => exact absurd (List.getLast?_eq_none_iff.mp hr) hnil
          | some x => exact ⟨x, rfl⟩
        refine ⟨last, ?_, ?_⟩
        · rw [getLast?_of_suffix_ne_nil _ _ hsuffix hnil]; exact hlast
        · rw [List.take_of_length_le hle]
          exact List.mem_map.mpr ⟨last, List.mem_of_mem_getLast? hlast, rfl⟩
    · rintro (hnil | ⟨last, hlast, hmem⟩)
      · simp [hnil]
      · by_cases hnil : st.range start = []
        · simp [hnil]
        · rw [getLast?_of_suffix_ne_nil _ _ hsuffix hnil] at hlast
          have hlast2 : ((st.range start).map Prod.fst).getLast? = some last.1 := by
            rw [List.getLast?_map, hlast]; rfl
          have hmem2 : last.1 ∈ ((st.range start).map Prod.fst).take maxResult.toNat := by
            rw [← List.map_take]
            simpa using hmem
          simpa using length_le_of_getLast_mem_take _ _ _ hnd hlast2 hmem2

theorem trie3_wf : trie3.WF := by
  unfold Trie.WF
  decide

/-- C7 at the trie with keys 1, 2, 3, from key 2 with pages of one entry: the
page is the leaf of key 2 and the continuation key is 3. -/
theorem storageRangeAt_contents_witness :
    trie3.WF
    ∧ (∀ e ∈ (trie3.range (key32 2)).take (min (1 : Int).toNat (trie3.range (key32 2)).length),
        decodes splitAny e.2 = true)
    ∧ (storageRangeAt splitAny trie3 (key32 2) 1).1.Storage
        = [(key32 2, ⟨none, BytesToHash [12]⟩)]
    ∧ (storageRangeAt splitAny trie3 (key32 2) 1).1.NextKey = some (key32 3) :=
  ⟨trie3_wf, by decide,
    (storageRangeAt_contents splitAny trie3 trie3_wf (key32 2) 1 (by decide)).2.1.trans
      (by decide),
    (storageRangeAt_contents splitAny trie3 trie3_wf (key32 2) 1 (by decide)).2.2.2.2.1.trans
      (by decide)⟩

/-- C7 as stated fails where no leaf has a key at least `start`: on the trie
with keys 1, 2, 3 a call from key 4 returns an empty `Storage`, which does not
include the last key 3, and yet `NextKey` is nil.  And with a negative
`maxResult` the empty `Storage` has more than `maxResult` entries. -/
theorem storageRangeAt_nextKey_counterexample :
    trie3.WF
    ∧ trie3.leaves.getLast? = some (key32 3, [13])
    ∧ ¬ ((storageRangeAt splitAny trie3 (key32 4) 5).1.NextKey = none
          ↔ key32 3 ∈ (storageRangeAt splitAny trie3 (key32 4) 5).1.Storage.map Prod.fst)
    ∧ ¬ ((storageRangeAt splitAny trie3 [] (-1)).1.Storage.length : Int) ≤ -1 :=
  ⟨trie3_wf, by decide, by decide, by decide⟩

/-! ## Paging through a trie -/

/-- Paging from a position of the iterator: with pages of at least one entry
and one unit of fuel per leaf left and one more, the enumeration ends and its
pages, put end to end, are the bindings of the leaves left, in order. -/
theorem enumerate_from (split : Bytes → Except String Bytes) (st : Trie) (hwf : st.WF)
    (hdec : ∀ e ∈ st.leaves, decodes split e.2 = true) (maxResult : Int)
    (hmax : 1 ≤ maxResult) :
    ∀ (fuel : Nat) (start : Bytes), (st.seek start).length < fuel →
      ∃ ps, enumerate split st maxResult fuel start = some (.pages ps)
        ∧ (ps.map (fun p => p.Storage)).flatten
            = (st.seek start).map (fun e => (e.1, entryOf split st e)) := by
  have hpos : 1 ≤ maxResult.toNat := by omega
  intro fuel
  induction fuel with
  | zero => intro start h; omega
  | succ fuel ih =>
    intro start hfuel
    have hsuffix : st.seek start <:+ st.leaves := List.dropWhile_suffix _
    have hpage := storageRangeAt_page split st hwf start maxResult
      (fun e he => exists_ok_of_decodes split e.2
        (hdec e (hsuffix.subset (List.mem_of_mem_take he))))
    rw [enumerate, hpage]
    cases hd : (st.seek start).drop maxResult.toNat with
    | nil =>
      have hle : (st.seek start).length ≤ maxResult.toNat := List.drop_eq_nil_iff.mp hd
      refine ⟨_, rfl, ?_⟩
      simp [List.take_of_length_le hle]
    | cons e rest =>
      have hsplit : st.seek start = (st.seek start).take maxResult.toNat ++ e :: rest := by
        rw [← hd, List.take_append_drop]
      obtain ⟨pre, hpre⟩ := hsuffix
      have hleaves : st.leaves = (pre ++ (st.seek start).take maxResult.toNat) ++ e :: rest := by
        rw [List.append_assoc, ← hsplit, hpre]
      have hnext : st.seek e.1 = e :: rest := by
        have hsorted := hwf.2
        rw [hleaves] at hsorted
        have := dropWhile_at_leaf _ e rest hsorted
        rw [← hleaves] at this
        exact this
      have hlen : (st.seek e.1).length < fuel := by
        have h1 : (st.seek start).length
            = ((st.seek start).take maxResult.toNat).length + (e :: rest).length := by
          conv_lhs => rw [hsplit]
          rw [List.length_append]
        have h2 : ((st.seek start).take maxResult.toNat).length ≥ 1 := by
          have h3 : (e :: rest).length = rest.length + 1 := rfl
          rw [List.length_take]
          exact Nat.le_min.mpr ⟨hpos, by omega⟩
        rw [hnext]
        omega
      obtain ⟨ps, hps, hjoin⟩ := ih e.1 hlen
      refine ⟨⟨((st.seek start).take maxResult.toNat).map (fun x => (x.1, entryOf split st x)),
        some e.1⟩ :: ps, ?_, ?_⟩
      · simp [hps]
      · simp only [List.map_cons, List.flatten_cons, hjoin, hnext]
        conv_rhs => rw [hsplit]
        simp

/-- C2 (amended). On a well-formed storage trie with `K` leaves whose values all
decode, for every page size `maxResult` of at least one, calling
`storageRangeAt` from the empty key and then from each `NextKey` in turn ends
after at most `K + 1` calls, and the pages, put end to end, hold exactly the
`K` internal keys of the trie, each once, in the order of the one call that
asks for all `K` at once. -/
theorem enumerate_complete (split : Bytes → Except String Bytes) (st : Trie) (hwf : st.WF)
    (hdec : ∀ e ∈ st.leaves, decodes split e.2 = true) (maxResult : Int)
    (hmax : 1 ≤ maxResult) (fuel : Nat) (hfuel : st.leaves.length < fuel) :
    ∃ ps, enumerate split st maxResult fuel [] = some (.pages ps)
      ∧ ((ps.map (fun p => p.Storage)).flatten).map Prod.fst = st.leaves.map Prod.fst
      ∧ (((ps.map (fun p => p.Storage)).flatten).map Prod.fst).Nodup
      ∧ (ps.map (fun p => p.Storage)).flatten
          = (storageRangeAt split st [] (st.leaves.length : Int)).1.Storage := by
  obtain ⟨ps, hps, hjoin⟩ := enumerate_from split st hwf hdec maxResult hmax fuel []
    (by rw [seek_nil]; exact hfuel)
  rw [seek_nil] at hjoin
  have hwalk := storageRangeAt_page split st hwf [] (st.leaves.length : Int)
    (by rw [seek_nil]; exact fun e he =>
      exists_ok_of_decodes split e.2 (hdec e (List.mem_of_mem_take he)))
  rw [seek_nil] at hwalk
  have hkeys : ((ps.map (fun p => p.Storage)).flatten).map Prod.fst = st.leaves.map Prod.fst := by
    rw [hjoin]; simp
  refine ⟨ps, hps, hkeys, ?_, ?_⟩
  · rw [hkeys]; exact keys_nodup_of_sorted _ hwf.2
  · rw [hjoin, hwalk]; simp

/-- C2 at the trie with keys 1, 2, 3 and pages of two entries. -/
theorem enumerate_complete_witness :
    trie3.WF ∧ (∀ e ∈ trie3.leaves, decodes splitAny e.2 = true) ∧ (1 : Int) ≤ 2
    ∧ trie3.leaves.length < 4
    ∧ ∃ ps, enumerate splitAny trie3 2 4 [] = some (.pages ps)
      ∧ ((ps.map (fun p => p.Storage)).flatten).map Prod.fst = trie3.leaves.map Prod.fst
      ∧ (((ps.map (fun p => p.Storage)).flatten).map Prod.fst).Nodup
      ∧ (ps.map (fun p => p.Storage)).flatten
          = (storageRangeAt splitAny trie3 [] (trie3.leaves.length : Int)).1.Storage :=
  ⟨trie3_wf, by decide, by decide, by decide,
    enumerate_complete splitAny trie3 trie3_wf (by decide) 2 (by decide) 4 (by decide)⟩

theorem enumerate_zero_stuck :
    ∀ (fuel : Nat) (start : Bytes), start = [] ∨ start = key32 1 →
      enumerate splitAny trie1 0 fuel start = none := by
  intro fuel
  induction fuel with
  | zero => intro start _; rfl
  | succ fuel ih =>
    intro start hstart
    have hcall : storageRangeAt splitAny trie1 start 0 = (⟨[], some (key32 1)⟩, none) := by
      rcases hstart with h | h <;> subst h <;> decide
    rw [enumerate, hcall]
    simp [ih (key32 1) (Or.inr rfl)]

/-- C2 as stated fails for the page size `K / 2` at `K = 1`: with `maxResult = 0`
every call on the one-leaf trie returns an empty page and the key of that leaf
as `NextKey`, so the enumeration never ends, whatever the number of calls. -/
theorem enumerate_page_zero_counterexample :
    trie1.WF ∧ trie1.leaves.length / 2 = 0
    ∧ storageRangeAt splitAny trie1 (key32 1) 0 = (⟨[], some (key32 1)⟩, none)
    ∧ ¬ ∃ fuel ps, enumerate splitAny trie1 0 fuel [] = some (.pages ps) := by
  refine ⟨by unfold Trie.WF; decide, by decide, by decide, ?_⟩
  rintro ⟨fuel, ps, h⟩
  rw [enumerate_zero_stuck fuel [] (Or.inl rfl)] at h
  exact absurd h (by simp)

/-! ## The account diff -/

/-- C3. `getModifiedAccounts` on a start block whose height is not below the
height of the end block, equal heights included, returns the invalid-range
error and no address, and opens no trie; with the start height strictly below
the end height it never returns that error.  So
`GetModifiedAccountsByNumber`, once both numbers resolve, fails with the
invalid-range error when the start height is not below the end height. -/
theorem getModifiedAccounts_range {σ : Type} (ops : ChainStore σ) (chain : σ) (lib : TrieLib)
    (startBlock endBlock : Block) :
    (startBlock.NumberU64 ≥ endBlock.NumberU64 →
      getModifiedAccounts lib startBlock endBlock
        = ⟨[], some (.invalidRange startBlock.NumberU64 endBlock.NumberU64), []⟩)
    ∧ (startBlock.NumberU64 < endBlock.NumberU64 →
      ∀ s e, (getModifiedAccounts lib startBlock endBlock).err ≠ some (.invalidRange s e))
    ∧ (∀ startNum endNum, ops.GetBlockByNumber chain startNum = some startBlock →
        ops.GetBlockByNumber chain endNum = some endBlock →
        startBlock.NumberU64 ≥ endBlock.NumberU64 →
        GetModifiedAccountsByNumber ops chain lib startNum (some endNum)
          = ⟨[], some (.invalidRange startBlock.NumberU64 endBlock.NumberU64), []⟩) := by
  have hfail : startBlock.NumberU64 ≥ endBlock.NumberU64 →
      getModifiedAccounts lib startBlock endBlock
        = ⟨[], some (.invalidRange startBlock.NumberU64 endBlock.NumberU64), []⟩ := by
    intro h
    simp [getModifiedAccounts, h]
  refine ⟨hfail, ?_, ?_⟩
  · intro h s e
    have hn : ¬ startBlock.NumberU64 ≥ endBlock.NumberU64 := by omega
    unfold getModifiedAccounts
    simp only [hn, if_false]
    cases lib.NewSecure startBlock.root with
    | error c => simp
    | ok oldTrie =>
      cases lib.NewSecure endBlock.root with
      | error c => simp
      | ok newTrie =>
        simp only []
        split <;> simp
  · intro startNum endNum hs he h
    simp [GetModifiedAccountsByNumber, hs, he, hfail h]

/-- C3 at the chain of blocks 1 to 10: `GetModifiedAccountsByNumber(10, 5)`
fails with the invalid-range error. -/
theorem getModifiedAccountsByNumber_10_5 :
    GetModifiedAccountsByNumber listStore chain10 (listLib acctDb) 10 (some 5)
      = ⟨[], some (.invalidRange 10 5), []⟩ :=
  (getModifiedAccounts_range listStore chain10 (listLib acctDb) (mkBlock 10) (mkBlock 5)).2.2
    10 5 (by decide) (by decide) (by decide)

/-- C4. When the single argument resolves to a block `b`, by number or by hash,
and the store has the block `p` of hash `b.ParentHash`, the call with the end
omitted returns what `getModifiedAccounts(p, b)` returns. -/
theorem getModifiedAccounts_single_endpoint {σ : Type} (ops : ChainStore σ) (chain : σ)
    (lib : TrieLib) (b p : Block) (hparent : ops.GetBlockByHash chain b.parentHash = some p) :
    (∀ n, ops.GetBlockByNumber chain n = some b →
      GetModifiedAccountsByNumber ops chain lib n none = getModifiedAccounts lib p b)
    ∧ (∀ h, ops.GetBlockByHash chain h = some b →
      GetModifiedAccountsByHash ops chain lib h none = getModifiedAccounts lib p b) := by
  constructor
  · intro n hn
    simp [GetModifiedAccountsByNumber, hn, hparent]
  · intro h hh
    simp [GetModifiedAccountsByHash, hh, hparent]

/-- C4 at the chain of blocks 1 to 10, for block 3 and its parent, block 2: the
call by number and the call by hash both return the account 8, whose record
block 3 changes. -/
theorem getModifiedAccounts_single_endpoint_witness :
    listStore.GetBlockByHash chain10 (mkBlock 3).parentHash = some (mkBlock 2)
    ∧ GetModifiedAccountsByNumber listStore chain10 (listLib acctDb) 3 none
        = getModifiedAccounts (listLib acctDb) (mkBlock 2) (mkBlock 3)
    ∧ GetModifiedAccountsByHash listStore chain10 (listLib acctDb) [3] none
        = getModifiedAccounts (listLib acctDb) (mkBlock 2) (mkBlock 3)
    ∧ getModifiedAccounts (listLib acctDb) (mkBlock 2) (mkBlock 3)
        = ⟨[addr20 8], none, [[102], [103]]⟩ :=
  ⟨by decide,
    (getModifiedAccounts_single_endpoint listStore chain10 (listLib acctDb) (mkBlock 3)
      (mkBlock 2) (by decide)).1 3 (by decide),
    (getModifiedAccounts_single_endpoint listStore chain10 (listLib acctDb) (mkBlock 3)
      (mkBlock 2) (by decide)).2 [3] (by decide),
    by decide⟩

/-- C5. A reference that does not resolve is an error and never an empty
result: when the start does not resolve, when a given end does not resolve, and
when the end is omitted and the parent of the start block is not in the store,
`GetModifiedAccountsByNumber` and `GetModifiedAccountsByHash` return the
not-found or no-parent error with no address, and open no trie. -/
theorem getModifiedAccounts_missing_block {σ : Type} (ops : ChainStore σ) (chain : σ)
    (lib : TrieLib) :
    (∀ startNum endNum, ops.GetBlockByNumber chain startNum = none →
      GetModifiedAccountsByNumber ops chain lib startNum endNum
        = ⟨[], some (.startNumNotFound startNum), []⟩)
    ∧ (∀ startNum endNum b, ops.GetBlockByNumber chain startNum = some b →
      ops.GetBlockByNumber chain endNum = none →
      GetModifiedAccountsByNumber ops chain lib startNum (some endNum)
        = ⟨[], some (.endNumNotFound endNum), []⟩)
    ∧ (∀ startNum b, ops.GetBlockByNumber chain startNum = some b →
      ops.GetBlockByHash chain b.parentHash = none →
      GetModifiedAccountsByNumber ops chain lib startNum none
        = ⟨[], some (.noParent b.number), []⟩)
    ∧ (∀ startHash endHash, ops.GetBlockByHash chain startHash = none →
      GetModifiedAccountsByHash ops chain lib startHash endHash
        = ⟨[], some (.startHashNotFound startHash), []⟩)
    ∧ (∀ startHash endHash b, ops.GetBlockByHash chain startHash = some b →
      ops.GetBlockByHash chain endHash = none →
      GetModifiedAccountsByHash ops chain lib startHash (some endHash)
        = ⟨[], some (.endHashNotFound endHash), []⟩)
    ∧ (∀ startHash b, ops.GetBlockByHash chain startHash = some b →
      ops.GetBlockByHash chain b.parentHash = none →
      GetModifiedAccountsByHash ops chain lib startHash none
        = ⟨[], some (.noParent b.number), []⟩) := by
  refine ⟨?_, ?_, ?_, ?_, ?_, ?_⟩
  · intro startNum endNum h
    simp [GetModifiedAccountsByNumber, h]
  · intro startNum endNum b hs he
    simp [GetModifiedAccountsByNumber, hs, he]
  · intro startNum b hs hp
    simp [GetModifiedAccountsByNumber, hs, hp]
  · intro startHash endHash h
    simp [GetModifiedAccountsByHash, h]
  · intro startHash endHash b hs he
    simp [GetModifiedAccountsByHash, hs, he]
  · intro startHash b hs hp
    simp [GetModifiedAccountsByHash, hs, hp]

/-- C5 at the chain of blocks 1 to 10: an unknown start hash, an unknown end
number, and block 1, whose parent is not in the store. -/
theorem getModifiedAccounts_missing_block_witness :
    GetModifiedAccountsByHash listStore chain10 (listLib acctDb) [77] none
        = ⟨[], some (.startHashNotFound [77]), []⟩
    ∧ GetModifiedAccountsByNumber listStore chain10 (listLib acctDb) 2 (some 11)
        = ⟨[], some (.endNumNotFound 11), []⟩
    ∧ GetModifiedAccountsByNumber listStore chain10 (listLib acctDb) 1 none
        = ⟨[], some (.noParent 1), []⟩ :=
  ⟨(getModifiedAccounts_missing_block listStore chain10 (listLib acctDb)).2.2.2.1
      [77] none (by decide),
    (getModifiedAccounts_missing_block listStore chain10 (listLib acctDb)).2.1
      2 11 (mkBlock 2) (by decide) (by decide),
    (getModifiedAccounts_missing_block listStore chain10 (listLib acctDb)).2.2.1
      1 (mkBlock 1) (by decide) (by decide)⟩

/-- The loop of `getModifiedAccounts` stops at the first emitted key without a
preimage and otherwise appends one address per emitted key, in order. -/
theorem collectDirty_eq (newTrie : Trie) :
    ∀ (it : List Leaf) (dirty : List Address),
      collectDirty newTrie it dirty
        = match it.find? (fun e => (newTrie.GetKey e.1).isNone) with
          | some e => .error e.1
          | none => .ok (dirty ++ it.map (fun e => BytesToAddress ((newTrie.GetKey e.1).getD []))) := by
  intro it
  induction it with
  | nil => intro dirty; simp [collectDirty]
  | cons e it ih =>
    intro dirty
    obtain ⟨k, v⟩ := e
    cases hk : newTrie.GetKey k with
    | none => simp [collectDirty, hk]
    | some key =>
      simp only [collectDirty, hk, List.find?_cons, Option.isNone_some, ih]
      cases hf : it.find? (fun e => (newTrie.GetKey e.1).isNone) with
      | none => simp [hk]
      | some x => simp

/-- The result of `getModifiedAccounts` once the range is valid and both tries
open. -/
theorem getModifiedAccounts_opened (lib : TrieLib) (startBlock endBlock : Block)
    (oldTrie newTrie : Trie) (hrange : startBlock.NumberU64 < endBlock.NumberU64)
    (hold : lib.NewSecure startBlock.root = .ok oldTrie)
    (hnew : lib.NewSecure endBlock.root = .ok newTrie) :
    getModifiedAccounts lib startBlock endBlock
      = match (lib.NewDifferenceIterator (oldTrie.seek []) (newTrie.seek [])).find?
            (fun e => (newTrie.GetKey e.1).isNone) with
        | some e => ⟨[], some (.noPreimage e.1), [startBlock.root, endBlock.root]⟩
        | none =>
          ⟨(lib.NewDifferenceIterator (oldTrie.seek []) (newTrie.seek [])).map
              (fun e => BytesToAddress ((newTrie.GetKey e.1).getD [])),
            none, [startBlock.root, endBlock.root]⟩ := by
  have hn : ¬ startBlock.NumberU64 ≥ endBlock.NumberU64 := by omega
  simp only [getModifiedAccounts, hn, if_false, hold, hnew, collectDirty_eq]
  cases hf : (lib.NewDifferenceIterator (oldTrie.seek []) (newTrie.seek [])).find?
      (fun e => (newTrie.GetKey e.1).isNone) with
  | none => simp
  | some x => simp

/-- C6. Once the range is valid and both account tries open, for whatever
sequence the difference iterator emits: if some emitted key has no preimage in
the new trie, `getModifiedAccounts` returns the preimage-missing error for the
first such key, with no address at all; if every emitted key has a preimage, it
returns no error and one address per emitted key. -/
theorem getModifiedAccounts_preimage (lib : TrieLib) (startBlock endBlock : Block)
    (oldTrie newTrie : Trie) (hrange : startBlock.NumberU64 < endBlock.NumberU64)
    (hold : lib.NewSecure startBlock.root = .ok oldTrie)
    (hnew : lib.NewSecure endBlock.root = .ok newTrie) :
    ((∃ e ∈ lib.NewDifferenceIterator (oldTrie.seek []) (newTrie.seek []),
        newTrie.GetKey e.1 = none) →
      ∃ e ∈ lib.NewDifferenceIterator (oldTrie.seek []) (newTrie.seek []),
        newTrie.GetKey e.1 = none
        ∧ getModifiedAccounts lib startBlock endBlock
            = ⟨[], some (.noPreimage e.1), [startBlock.root, endBlock.root]⟩)
    ∧ ((∀ e ∈ lib.NewDifferenceIterator (oldTrie.seek []) (newTrie.seek []),
        newTrie.GetKey e.1 ≠ none) →
      (getModifiedAccounts lib startBlock endBlock).err = none
      ∧ (getModifiedAccounts lib startBlock endBlock).dirty
          = (lib.NewDifferenceIterator (oldTrie.seek []) (newTrie.seek [])).map
              (fun e => BytesToAddress ((newTrie.GetKey e.1).getD []))) := by
  rw [getModifiedAccounts_opened lib startBlock endBlock oldTrie newTrie hrange hold hnew]
  constructor
  · rintro ⟨e, he, hnone⟩
    cases hf : (lib.NewDifferenceIterator (oldTrie.seek []) (newTrie.seek [])).find?
        (fun e => (newTrie.GetKey e.1).isNone) with
    | none =>
      have := List.find?_eq_none.mp hf e he
      simp [hnone] at this
    | some x =>
      refine ⟨x, List.mem_of_find?_eq_some hf, ?_, rfl⟩
      simpa using List.find?_some hf
  · intro hall
    cases hf : (lib.NewDifferenceIterator (oldTrie.seek []) (newTrie.seek [])).find?
        (fun e => (newTrie.GetKey e.1).isNone) with
    | none => simp
    | some x =>
      have hx := List.mem_of_find?_eq_some hf
      have hnone : newTrie.GetKey x.1 = none := by simpa using List.find?_some hf
      exact absurd hnone (hall x hx)

/-- C6 at the example database: from block 3 to block 4 the difference is the
account 9 alone, which has no preimage, and the call fails; from block 1 to
block 4 the difference is the accounts 8 and 9, and the call fails all the same,
without the address of account 8. -/
theorem getModifiedAccounts_preimage_witness :
    (mkBlock 1).NumberU64 < (mkBlock 4).NumberU64
    ∧ (listLib acctDb).NewSecure (mkBlock 1).root = .ok (acctTrie [(key32 7, [1])])
    ∧ (listLib acctDb).NewDifferenceIterator
          ((acctTrie [(key32 7, [1])]).seek [])
          ((acctTrie [(key32 7, [1]), (key32 8, [6]), (key32 9, [2])]).seek [])
        = [(key32 8, [6]), (key32 9, [2])]
    ∧ getModifiedAccounts (listLib acctDb) (mkBlock 1) (mkBlock 4)
        = ⟨[], some (.noPreimage (key32 9)), [[101], [104]]⟩
    ∧ ∃ e ∈ (listLib acctDb).NewDifferenceIterator
          ((acctTrie [(key32 7, [1])]).seek [])
          ((acctTrie [(key32 7, [1]), (key32 8, [6]), (key32 9, [2])]).seek []),
        (acctTrie [(key32 7, [1]), (key32 8, [6]), (key32 9, [2])]).GetKey e.1 = none
        ∧ getModifiedAccounts (listLib acctDb) (mkBlock 1) (mkBlock 4)
            = ⟨[], some (.noPreimage e.1), [(mkBlock 1).root, (mkBlock 4).root]⟩ :=
  ⟨by decide, by rfl, by decide, by decide,
    (getModifiedAccounts_preimage (listLib acctDb) (mkBlock 1) (mkBlock 4)
      (acctTrie [(key32 7, [1])])
      (acctTrie [(key32 7, [1]), (key32 8, [6]), (key32 9, [2])])
      (by decide) (by rfl) (by rfl)).1
      ⟨(key32 9, [2]), by decide, by decide⟩⟩

/-! ## Decoding failures during import -/

/-- One round of the outer loop on a stream that starts with a full batch of
decodable blocks. -/
theorem importBatches_full_chunk {σ : Type} (ops : ChainStore σ) (fuel : Nat) (chain : σ)
    (inserted : List (List Block)) (batch index : Nat) (chunk : List Block) (s : BlockStream)
    (hlen : chunk.length = batchCap) :
    importBatches ops (fuel + 1) chain inserted batch index (chunk.map Except.ok ++ s)
      = if hasAllBlocks ops chain chunk then
          importBatches ops fuel chain inserted (batch + 1) (index + batchCap) s
        else
          match ops.InsertChain chain chunk with
          | (chain', some cause) =>
            some ⟨false, some (.insert batch cause), chain', inserted ++ [chunk], s⟩
          | (chain', none) =>
            importBatches ops fuel chain' (inserted ++ [chunk]) (batch + 1) (index + batchCap) s := by
  have hne : ¬ batchCap = 0 := by decide
  rw [importBatches, loadBatch_chunk batchCap chunk index s (le_of_eq hlen) (Or.inl hlen)]
  simp only [hlen, hne, if_false]

/-- A run that gets through a prefix of full batches goes on with the rest of
the stream from the store, the log and the counters it has reached. -/
theorem importBatches_prefix {σ : Type} (ops : ChainStore σ) :
    ∀ (j : Nat) (pre : List Block), pre.length = batchCap * j →
      ∀ (fuelp : Nat) (chain : σ) (inserted : List (List Block)) (batch index : Nat)
        (r : ImportResult σ),
        importBatches ops fuelp chain inserted batch index (pre.map Except.ok) = some r →
        r.ok = true →
        ∀ (s : BlockStream) (fuel : Nat),
          importBatches ops (j + fuel) chain inserted batch index (pre.map Except.ok ++ s)
            = importBatches ops fuel r.chain r.inserted (batch + j) (index + pre.length) s := by
  intro j
  induction j with
  | zero =>
    intro pre hlen fuelp chain inserted batch index r hrun hok s fuel
    have hnil : pre = [] := List.length_eq_zero.mp (by simpa using hlen)
    subst hnil
    cases fuelp with
    | zero => simp [importBatches] at hrun
    | succ f =>
      simp only [List.map_nil, importBatches, loadBatch, List.length_nil, if_true,
        Option.some.injEq] at hrun
      subst hrun
      simp
  | succ j ih =>
    intro pre hlen fuelp chain inserted batch index r hrun hok s fuel
    have hcap : batchCap ≤ pre.length := by rw [hlen, Nat.mul_succ]; omega
    have hchunk : (pre.take batchCap).length = batchCap := by
      rw [List.length_take]; omega
    have hrest : (pre.drop batchCap).length = batchCap * j := by
      rw [List.length_drop, hlen, Nat.mul_succ]; omega
    have hsplit : pre.map Except.ok
        = (pre.take batchCap).map (Except.ok : Block → Except String Block)
            ++ (pre.drop batchCap).map Except.ok := by
      rw [← List.map_append, List.take_append_drop]
    have hidx : index + batchCap + (pre.drop batchCap).length = index + pre.length := by
      rw [List.length_drop]; omega
    cases fuelp with
    | zero => simp [importBatches] at hrun
    | succ f =>
      rw [hsplit, List.append_assoc, Nat.succ_add,
        importBatches_full_chunk ops _ chain inserted batch index _ _ hchunk]
      rw [hsplit, importBatches_full_chunk ops f chain inserted batch index _ _ hchunk] at hrun
      by_cases hhas : hasAllBlocks ops chain (pre.take batchCap) = true
      · simp only [hhas, if_true] at hrun ⊢
        rw [ih _ hrest f chain inserted (batch + 1) (index + batchCap) r hrun hok s fuel, hidx]
        congr 1
        omega
      · have hf : hasAllBlocks ops chain (pre.take batchCap) = false := by simpa using hhas
        cases hins : ops.InsertChain chain (pre.take batchCap) with
        | mk chain' e =>
          cases e with
          | some cause =>
            simp only [hf, hins, Bool.false_eq_true, if_false, Option.some.injEq] at hrun
            subst hrun
            simp at hok
          | none =>
            simp only [hf, hins, Bool.false_eq_true, if_false] at hrun ⊢
            rw [ih _ hrest f chain' _ (batch + 1) (index + batchCap) r hrun hok s fuel, hidx]
            congr 1
            omega

/-- The outer loop at a stream whose next batch breaks off at a block that fails
to decode. -/
theorem importBatches_decode_failure {σ : Type} (ops : ChainStore σ) (fuel : Nat) (chain : σ)
    (inserted : List (List Block)) (batch index : Nat) (cur : List Block) (cause : String)
    (tail : BlockStream) (hlen : cur.length < batchCap) :
    importBatches ops (fuel + 1) chain inserted batch index
        (cur.map Except.ok ++ Except.error cause :: tail)
      = some ⟨false, some (.parse (index + cur.length) cause), chain, inserted, tail⟩ := by
  rw [importBatches, loadBatch_ok_append batchCap cur [] index _ (by simpa using le_of_lt hlen)]
  simp [loadBatch, hlen]

/-- On a stream of decodable blocks every batch handed to `InsertChain` is one
of the consecutive chunks of `batchCap` blocks of the stream. -/
theorem importBatches_inserted_chunks {σ : Type} (ops : ChainStore σ) (all : List Block) :
    ∀ (fuel m : Nat) (chain : σ) (inserted : List (List Block)) (batch index : Nat)
      (r : ImportResult σ),
      importBatches ops fuel chain inserted batch index
          ((all.drop (m * batchCap)).map Except.ok) = some r →
      ∀ x ∈ r.inserted, x ∈ inserted
        ∨ ∃ n, n * batchCap < all.length ∧ x = (all.drop (n * batchCap)).take batchCap := by
  intro fuel
  induction fuel with
  | zero => intro m chain inserted batch index r hrun; simp [importBatches] at hrun
  | succ fuel ih =>
    intro m chain inserted batch index r hrun x hx
    rw [importBatches, loadBatch_take] at hrun
    have hdrop : (all.drop (m * batchCap)).drop batchCap = all.drop ((m + 1) * batchCap) := by
      rw [List.drop_drop, Nat.add_mul, Nat.one_mul]
    rw [hdrop] at hrun
    by_cases hempty : ((all.drop (m * batchCap)).take batchCap).length = 0
    · simp only [hempty, if_true, Option.some.injEq] at hrun
      subst hrun
      exact Or.inl hx
    · have hm : m * batchCap < all.length := by
        by_contra hge
        have : all.drop (m * batchCap) = [] := List.drop_eq_nil_of_le (by omega)
        simp [this] at hempty
      have hchunk : ∀ y, y ∈ inserted ++ [(all.drop (m * batchCap)).take batchCap] →
          y ∈ inserted
            ∨ ∃ n, n * batchCap < all.length ∧ y = (all.drop (n * batchCap)).take batchCap := by
        intro y hy
        rcases List.mem_append.mp hy with h | h
        · exact Or.inl h
        · exact Or.inr ⟨m, hm, by simpa using h⟩
      simp only [hempty, if_false] at hrun
      by_cases hhas : hasAllBlocks ops chain ((all.drop (m * batchCap)).take batchCap) = true
      · simp only [hhas, if_true] at hrun
        exact ih (m + 1) chain inserted _ _ r hrun x hx
      · have hf : hasAllBlocks ops chain ((all.drop (m * batchCap)).take batchCap) = false := by
          simpa using hhas
        cases hins : ops.InsertChain chain ((all.drop (m * batchCap)).take batchCap) with
        | mk chain' e =>
          cases e with
          | some cause =>
            simp only [hf, hins, Bool.false_eq_true, if_false, Option.some.injEq] at hrun
            subst hrun
            exact hchunk x hx
          | none =>
            simp only [hf, hins, Bool.false_eq_true, if_false] at hrun
            rcases ih (m + 1) chain' _ _ _ r hrun x hx with h | h
            · exact hchunk x h
            · exact Or.inr h

/-- C8 (amended). On a stream whose first `i` blocks decode and whose next
decode fails, if importing the full batches before the failing block meets no
`InsertChain` failure (always so when `i < 2500`, where there is none),
`ImportChain` returns `(false, err)` with `err` carrying the index `i`; the
store and the `InsertChain` calls are those of importing these full batches
alone, each call being one of them whole, so no block of the batch that was
being filled is inserted; and what follows position `i` is left unread. -/
theorem importChain_decode_failure {σ : Type} (ops : ChainStore σ) (chain : σ)
    (good : List Block) (cause : String) (tail : BlockStream) (r : ImportResult σ)
    (hpre : ImportChain ops chain
      (.ok ((good.take (good.length / batchCap * batchCap)).map Except.ok)) = some r)
    (hok : r.ok = true) :
    ImportChain ops chain (.ok (good.map Except.ok ++ Except.error cause :: tail))
      = some ⟨false, some (.parse good.length cause), r.chain, r.inserted, tail⟩
    ∧ (∀ x ∈ r.inserted, ∃ n, n < good.length / batchCap
        ∧ x = (good.drop (n * batchCap)).take batchCap)
    ∧ (good.length < batchCap → r.chain = chain ∧ r.inserted = []) := by
  have hq : good.length / batchCap * batchCap ≤ good.length := Nat.div_mul_le_self _ _
  have hcap : 0 < batchCap := by decide
  have hplen : (good.take (good.length / batchCap * batchCap)).length
      = batchCap * (good.length / batchCap) := by
    rw [List.length_take, Nat.min_eq_left hq, Nat.mul_comm]
  have hclen : (good.drop (good.length / batchCap * batchCap)).length < batchCap := by
    rw [List.length_drop]
    have := Nat.mod_lt good.length hcap
    have h2 := Nat.div_add_mod good.length batchCap
    rw [Nat.mul_comm] at h2
    omega
  have hsplit : good.map Except.ok
      = (good.take (good.length / batchCap * batchCap)).map
          (Except.ok : Block → Except String Block)
        ++ (good.drop (good.length / batchCap * batchCap)).map Except.ok := by
    rw [← List.map_append, List.take_append_drop]
  unfold ImportChain at hpre
  simp only at hpre
  refine ⟨?_, ?_, ?_⟩
  · unfold ImportChain
    simp only
    have hfuel : (good.map Except.ok ++ Except.error cause :: tail).length + 1
        = good.length / batchCap
          + ((good.length - good.length / batchCap + tail.length + 1) + 1) := by
      have := Nat.div_le_self good.length batchCap
      simp only [List.length_append, List.length_map, List.length_cons]
      omega
    rw [hfuel, hsplit, List.append_assoc,
      importBatches_prefix ops _ _ hplen _ chain [] 0 0 r hpre hok,
      importBatches_decode_failure ops _ _ _ _ _ _ cause tail hclen]
    have hidx : 0 + (good.take (good.length / batchCap * batchCap)).length
        + (good.drop (good.length / batchCap * batchCap)).length = good.length := by
      rw [List.length_take, List.length_drop]; omega
    rw [hidx]
  · intro x hx
    have hrun : importBatches ops ((good.take (good.length / batchCap * batchCap)).map
        (Except.ok : Block → Except String Block)).length.succ chain [] 0 0
        (((good.take (good.length / batchCap * batchCap)).drop (0 * batchCap)).map Except.ok)
          = some r := by
      simpa using hpre
    rcases importBatches_inserted_chunks ops _ _ 0 chain [] 0 0 r hrun x hx with h | ⟨n, hn, hxn⟩
    · simp at h
    · rw [List.length_take, Nat.min_eq_left hq] at hn
      have hnq : n < good.length / batchCap := (Nat.mul_lt_mul_right hcap).mp hn
      refine ⟨n, hnq, ?_⟩
      have hle : (n + 1) * batchCap ≤ good.length / batchCap * batchCap :=
        Nat.mul_le_mul_right _ hnq
      rw [hxn, List.drop_take, List.take_take]
      congr 1
      rw [Nat.add_mul, Nat.one_mul] at hle
      omega
  · intro hlt
    have hzero : good.length / batchCap = 0 := Nat.div_eq_of_lt hlt
    simp only [hzero, Nat.zero_mul, List.take_zero, List.map_nil, List.length_nil,
      importBatches, loadBatch, if_true, Option.some.injEq] at hpre
    subst hpre
    exact ⟨rfl, rfl⟩

/-- C8 at a stream of two blocks, a corrupt third one and a fourth: the error
names block 2, nothing is inserted, and the fourth block is not read. -/
theorem importChain_decode_failure_witness :
    ImportChain listStore []
        (.ok (([mkBlock 1, mkBlock 2].take
          ([mkBlock 1, mkBlock 2].length / batchCap * batchCap)).map Except.ok))
      = some ⟨true, none, [], [], []⟩
    ∧ ImportChain listStore []
        (.ok ([mkBlock 1, mkBlock 2].map Except.ok
          ++ Except.error "rlp: expected List" :: [Except.ok (mkBlock 4)]))
      = some ⟨false, some (.parse 2 "rlp: expected List"), [], [], [Except.ok (mkBlock 4)]⟩ :=
  ⟨rfl, (importChain_decode_failure listStore [] [mkBlock 1, mkBlock 2] "rlp: expected List"
    [Except.ok (mkBlock 4)] ⟨true, none, [], [], []⟩ rfl rfl).1⟩

theorem blocksUpTo_length (n : Nat) : (blocksUpTo n).length = n := by
  simp [blocksUpTo]

/-- C8 as stated fails when an earlier batch is refused: on a stream of 2500
decodable blocks followed by a corrupt one, into an empty store that refuses
the insertion, `ImportChain` returns the insertion error of batch 0, not a
parse error carrying the index 2500, and the corrupt block is never read. -/
theorem importChain_decode_failure_counterexample :
    ImportChain frozenStore []
        (.ok ((blocksUpTo 2500).map Except.ok ++ [Except.error "unexpected EOF"]))
      = some ⟨false, some (.insert 0 "known bad block"), [], [blocksUpTo 2500],
          [Except.error "unexpected EOF"]⟩ := by
  have hhas : hasAllBlocks frozenStore [] (blocksUpTo 2500) = false := by
    unfold hasAllBlocks
    rw [List.all_eq_false]
    exact ⟨mkBlock 1, List.mem_map.mpr ⟨0, List.mem_range.mpr (by decide), rfl⟩, by decide⟩
  unfold ImportChain
  simp only
  rw [importBatches_full_chunk frozenStore _ [] [] 0 0 (blocksUpTo 2500) _
    (blocksUpTo_length 2500)]
  simp only [hhas, Bool.false_eq_true, if_false]
  rfl

/-! ## Uniqueness and order of the account diff -/

/-- C9. For every successful call of `getModifiedAccounts` on account tries
(the difference iterator emits no key twice, and the preimage recorded for an
emitted key is the 20-byte address that hashes to the key): every emitted key
has a preimage, the `i`-th address returned is the preimage of the `i`-th
emitted key converted to an address, which is that preimage itself, and no
address is returned twice. -/
theorem getModifiedAccounts_unique (lib : TrieLib) (keccak : Bytes → Bytes)
    (startBlock endBlock : Block) (oldTrie newTrie : Trie)
    (hrange : startBlock.NumberU64 < endBlock.NumberU64)
    (hold : lib.NewSecure startBlock.root = .ok oldTrie)
    (hnew : lib.NewSecure endBlock.root = .ok newTrie)
    (hsuccess : (getModifiedAccounts lib startBlock endBlock).err = none)
    (hkeys : ((lib.NewDifferenceIterator (oldTrie.seek []) (newTrie.seek [])).map
      Prod.fst).Nodup)
    (hpre : ∀ e ∈ lib.NewDifferenceIterator (oldTrie.seek []) (newTrie.seek []),
      ∀ p ∈ newTrie.GetKey e.1, keccak p = e.1 ∧ p.length = 20) :
    (getModifiedAccounts lib startBlock endBlock).dirty.map some
        = (lib.NewDifferenceIterator (oldTrie.seek []) (newTrie.seek [])).map
            (fun e => (newTrie.GetKey e.1).map BytesToAddress)
    ∧ (getModifiedAccounts lib startBlock endBlock).dirty.map some
        = (lib.NewDifferenceIterator (oldTrie.seek []) (newTrie.seek [])).map
            (fun e => newTrie.GetKey e.1)
    ∧ (getModifiedAccounts lib startBlock endBlock).dirty.Nodup := by
  rw [getModifiedAccounts_opened lib startBlock endBlock oldTrie newTrie hrange hold hnew]
    at hsuccess ⊢
  cases hf : (lib.NewDifferenceIterator (oldTrie.seek []) (newTrie.seek [])).find?
      (fun e => (newTrie.GetKey e.1).isNone) with
  | some x => simp [hf] at hsuccess
  | none =>
    have hall : ∀ e ∈ lib.NewDifferenceIterator (oldTrie.seek []) (newTrie.seek []),
        ∃ p, newTrie.GetKey e.1 = some p ∧ keccak p = e.1 ∧ BytesToAddress p = p := by
      intro e he
      have hsome := List.find?_eq_none.mp hf e he
      cases hk : newTrie.GetKey e.1 with
      | none => simp [hk] at hsome
      | some p =>
        have hp := hpre e he p (by simp [hk])
        exact ⟨p, rfl, hp.1, setBytes_of_length 20 p hp.2⟩
    simp only
    refine ⟨?_, ?_, ?_⟩
    · rw [List.map_map]
      apply List.map_congr_left
      intro e he
      obtain ⟨p, hp, _, _⟩ := hall e he
      simp [hp]
    · rw [List.map_map]
      apply List.map_congr_left
      intro e he
      obtain ⟨p, hp, _, hconv⟩ := hall e he
      simp [hp, hconv]
    · have hnd : (lib.NewDifferenceIterator (oldTrie.seek []) (newTrie.seek [])).Nodup :=
        List.Nodup.of_map _ hkeys
      apply List.Nodup.map_on _ hnd
      intro x hx y hy hxy
      obtain ⟨p, hp, hkp, hconvp⟩ := hall x hx
      obtain ⟨q, hq, hkq, hconvq⟩ := hall y hy
      simp only [hp, hq, Option.getD_some, hconvp, hconvq] at hxy
      have hkey : x.1 = y.1 := by rw [← hkp, ← hkq, hxy]
      exact List.inj_on_of_nodup_map hkeys hx hy hkey

/-- C9 at the example database, from the empty state to block 3: the accounts 7
and 8, in key order, each once. -/
theorem getModifiedAccounts_unique_witness :
    (mkBlock 0).NumberU64 < (mkBlock 3).NumberU64
    ∧ (listLib acctDb).NewSecure (mkBlock 0).root = .ok (acctTrie [])
    ∧ (getModifiedAccounts (listLib acctDb) (mkBlock 0) (mkBlock 3)).err = none
    ∧ (getModifiedAccounts (listLib acctDb) (mkBlock 0) (mkBlock 3)).dirty
        = [addr20 7, addr20 8]
    ∧ (getModifiedAccounts (listLib acctDb) (mkBlock 0) (mkBlock 3)).dirty.Nodup :=
  ⟨by decide, rfl, by decide, by decide,
    (getModifiedAccounts_unique (listLib acctDb) BytesToHash (mkBlock 0) (mkBlock 3)
      (acctTrie []) (acctTrie [(key32 7, [1]), (key32 8, [6])])
      (by decide) rfl rfl (by decide) (by decide) (by decide)).2.2⟩

/-! ## Differences across three snapshots -/

theorem lookup_of_mem (l : List Leaf) (hnd : (l.map Prod.fst).Nodup) (k v : Bytes)
    (h : (k, v) ∈ l) : l.lookup k = some v := by
  induction l with
  | nil => simp at h
  | cons a l ih =>
    obtain ⟨ak, av⟩ := a
    simp only [List.map_cons, List.nodup_cons] at hnd
    rcases List.mem_cons.mp h with heq | hmem
    · cases heq
      simp [List.lookup]
    · have hne : k ≠ ak := by
        intro hk
        subst hk
        exact hnd.1 (List.mem_map.mpr ⟨(k, v), hmem, rfl⟩)
      have hbeq : (k == ak) = false := by simpa using hne
      simp [List.lookup, hbeq, ih hnd.2 hmem]

theorem mem_of_lookup (l : List Leaf) (k v : Bytes) (h : l.lookup k = some v) :
    (k, v) ∈ l := by
  induction l with
  | nil => simp at h
  | cons a l ih =>
    obtain ⟨ak, av⟩ := a
    by_cases hk : k = ak
    · subst hk
      simp [List.lookup] at h
      simp [h]
    · have hbeq : (k == ak) = false := by simpa using hk
      simp only [List.lookup, hbeq] at h
      exact List.mem_cons_of_mem _ (ih h)

theorem filter_key_eq (l : List Leaf) (hnd : (l.map Prod.fst).Nodup) (k v : Bytes)
    (h : (k, v) ∈ l) : l.filter (fun e => e.1 == k) = [(k, v)] := by
  induction l with
  | nil => simp at h
  | cons a l ih =>
    obtain ⟨ak, av⟩ := a
    simp only [List.map_cons, List.nodup_cons] at hnd
    rcases List.mem_cons.mp h with heq | hmem
    · cases heq
      have hnone : l.filter (fun e => e.1 == k) = [] := by
        rw [List.filter_eq_nil_iff]
        intro e he hek
        have : e.1 = k := by simpa using hek
        exact hnd.1 (List.mem_map.mpr ⟨e, he, this⟩)
      simp [List.filter, hnone]
    · have hne : ak ≠ k := by
        intro hk
        subst hk
        exact hnd.1 (List.mem_map.mpr ⟨(ak, v), hmem, rfl⟩)
      have hbeq : (ak == k) = false := by simpa using hne
      simp [List.filter, hbeq, ih hnd.2 hmem]

/-- The difference iterator of the spec between two snapshots that differ in
the record of one key only, which the new snapshot has: that leaf alone. -/
theorem differenceIterator_single (old new : List Leaf) (hnd : (new.map Prod.fst).Nodup)
    (kB v3 : Bytes) (hsame : ∀ k, k ≠ kB → old.lookup k = new.lookup k)
    (hchg : old.lookup kB ≠ new.lookup kB) (hv3 : new.lookup kB = some v3) :
    differenceIterator old new = [(kB, v3)] := by
  unfold differenceIterator
  rw [← filter_key_eq new hnd kB v3 (mem_of_lookup new kB v3 hv3)]
  apply List.filter_congr
  intro e he
  obtain ⟨k, v⟩ := e
  have hlook : new.lookup k = some v := lookup_of_mem new hnd k v he
  by_cases hk : k = kB
  · subst hk
    have hv : v = v3 := by
      rw [hlook] at hv3
      exact Option.some.inj hv3
    subst hv
    rw [hlook] at hchg
    simp [hchg]
  · have hbeq : (k == kB) = false := by simpa using hk
    simp [hbeq, hsame k hk, hlook]

/-- C10 (amended), on the difference iterator of the spec. For three account
snapshots `S1`, `S2`, `S3` at strictly increasing heights, all preimages
recorded, `S2` and `S3` differing only in the record of one account `B`: if `B`
has a record in `S3`, the diff from `S2` to `S3` is exactly `B`; and if moreover
that record is not the one `B` has in `S1`, the diff from `S1` to `S3` succeeds
and contains every address of the diff from `S2` to `S3`. -/
theorem getModifiedAccounts_three_snapshots (NewSecure : Hash → Except String Trie)
    (b1 b2 b3 : Block) (S1 S2 S3 : Trie) (kB v3 B : Bytes)
    (h12 : b1.NumberU64 < b2.NumberU64) (h23 : b2.NumberU64 < b3.NumberU64)
    (hS1 : NewSecure b1.root = .ok S1) (hS2 : NewSecure b2.root = .ok S2)
    (hS3 : NewSecure b3.root = .ok S3) (hwf : S3.WF)
    (hpre : ∀ e ∈ S3.leaves, S3.GetKey e.1 ≠ none) (hB : S3.GetKey kB = some B)
    (hsame : ∀ k, k ≠ kB → S2.leaves.lookup k = S3.leaves.lookup k)
    (hchg : S2.leaves.lookup kB ≠ S3.leaves.lookup kB)
    (hv3 : S3.leaves.lookup kB = some v3) :
    getModifiedAccounts (specLib NewSecure) b2 b3
        = ⟨[BytesToAddress B], none, [b2.root, b3.root]⟩
    ∧ (S1.leaves.lookup kB ≠ some v3 →
        (getModifiedAccounts (specLib NewSecure) b1 b3).err = none
        ∧ ∀ a ∈ (getModifiedAccounts (specLib NewSecure) b2 b3).dirty,
            a ∈ (getModifiedAccounts (specLib NewSecure) b1 b3).dirty) := by
  have hnd : (S3.leaves.map Prod.fst).Nodup := keys_nodup_of_sorted _ hwf.2
  have h13 : b1.NumberU64 < b3.NumberU64 := lt_trans h12 h23
  have hdiff23 : getModifiedAccounts (specLib NewSecure) b2 b3
      = ⟨[BytesToAddress B], none, [b2.root, b3.root]⟩ := by
    rw [getModifiedAccounts_opened (specLib NewSecure) b2 b3 S2 S3 h23 hS2 hS3]
    simp only [specLib, seek_nil]
    rw [differenceIterator_single S2.leaves S3.leaves hnd kB v3 hsame hchg hv3]
    simp [hB]
  refine ⟨hdiff23, ?_⟩
  intro h1
  rw [hdiff23, getModifiedAccounts_opened (specLib NewSecure) b1 b3 S1 S3 h13 hS1 hS3]
  simp only [specLib, seek_nil]
  have hnone : (differenceIterator S1.leaves S3.leaves).find?
      (fun e => (S3.GetKey e.1).isNone) = none := by
    rw [List.find?_eq_none]
    intro e he
    have hmem : e ∈ S3.leaves := List.mem_of_mem_filter he
    have := hpre e hmem
    cases hk : S3.GetKey e.1 with
    | none => exact absurd hk this
    | some p => simp
  rw [hnone]
  refine ⟨rfl, ?_⟩
  intro a ha
  have ha' : a = BytesToAddress B := by simpa using ha
  subst ha'
  have hemit : (kB, v3) ∈ differenceIterator S1.leaves S3.leaves := by
    unfold differenceIterator
    rw [List.mem_filter]
    exact ⟨mem_of_lookup _ _ _ hv3, by simpa using h1⟩
  exact List.mem_map.mpr ⟨(kB, v3), hemit, by simp [hB]⟩

theorem acctDb_same_but_8 (k : Bytes) (hk : k ≠ key32 8) :
    (acctTrie [(key32 7, [1]), (key32 8, [5])]).leaves.lookup k
      = (acctTrie [(key32 7, [1]), (key32 8, [6])]).leaves.lookup k := by
  have h8 : (k == key32 8) = false := by simpa using hk
  by_cases h7 : k = key32 7
  · subst h7; rfl
  · have h7' : (k == key32 7) = false := by simpa using h7
    simp [acctTrie, List.lookup, h7', h8]

/-- C10 at the example database: block 3 changes the record of account 8 only,
the diff from block 2 to block 3 is account 8, and the diff from block 1, where
account 8 has no record, to block 3 contains it. -/
theorem getModifiedAccounts_three_snapshots_witness :
    (mkBlock 1).NumberU64 < (mkBlock 2).NumberU64
    ∧ (mkBlock 2).NumberU64 < (mkBlock 3).NumberU64
    ∧ (acctTrie [(key32 7, [1]), (key32 8, [6])]).WF
    ∧ getModifiedAccounts (specLib (openIn acctDb)) (mkBlock 2) (mkBlock 3)
        = ⟨[BytesToAddress (addr20 8)], none, [(mkBlock 2).root, (mkBlock 3).root]⟩
    ∧ ((acctTrie [(key32 7, [1])]).leaves.lookup (key32 8) ≠ some [6] →
        (getModifiedAccounts (specLib (openIn acctDb)) (mkBlock 1) (mkBlock 3)).err = none
        ∧ ∀ a ∈ (getModifiedAccounts (specLib (openIn acctDb)) (mkBlock 2) (mkBlock 3)).dirty,
            a ∈ (getModifiedAccounts (specLib (openIn acctDb)) (mkBlock 1) (mkBlock 3)).dirty) :=
  ⟨by decide, by decide, by unfold Trie.WF; decide,
    getModifiedAccounts_three_snapshots (openIn acctDb) (mkBlock 1) (mkBlock 2) (mkBlock 3)
      (acctTrie [(key32 7, [1])]) (acctTrie [(key32 7, [1]), (key32 8, [5])])
      (acctTrie [(key32 7, [1]), (key32 8, [6])]) (key32 8) [6] (addr20 8)
      (by decide) (by decide) rfl rfl rfl (by unfold Trie.WF; decide) (by decide) (by decide)
      acctDb_same_but_8 (by decide) (by decide)⟩

/-- C10 as stated fails in two ways. When block 2 changes the record of account
8 and block 3 changes it back, the diff from block 2 to block 3 is account 8
while the diff from block 1 to block 3 is empty, so it is no superset. When
block 3 deletes account 8 and touches nothing else, the diff from block 2 to
block 3 is empty and not account 8. -/
theorem getModifiedAccounts_three_snapshots_counterexample :
    ((mkBlock 1).NumberU64 < (mkBlock 2).NumberU64
      ∧ (mkBlock 2).NumberU64 < (mkBlock 3).NumberU64)
    ∧ (getModifiedAccounts (listLib revertDb) (mkBlock 2) (mkBlock 3)
          = ⟨[addr20 8], none, [[102], [103]]⟩
      ∧ getModifiedAccounts (listLib revertDb) (mkBlock 1) (mkBlock 3)
          = ⟨[], none, [[101], [103]]⟩
      ∧ ¬ ∀ a ∈ (getModifiedAccounts (listLib revertDb) (mkBlock 2) (mkBlock 3)).dirty,
            a ∈ (getModifiedAccounts (listLib revertDb) (mkBlock 1) (mkBlock 3)).dirty)
    ∧ getModifiedAccounts (listLib deleteDb) (mkBlock 2) (mkBlock 3)
        = ⟨[], none, [[102], [103]]⟩ :=
  ⟨⟨by decide, by decide⟩, ⟨by decide, by decide, by decide⟩, by decide⟩

/-! ## Importing a stream twice -/

/-- After a successful import of decodable blocks into a store whose
`InsertChain`, when it succeeds, holds the blocks it was given and loses none it
held, every block of the stream is in the store. -/
theorem importBatches_all_present {σ : Type} (ops : ChainStore σ)
    (hins : ∀ c bs c', ops.InsertChain c bs = (c', none) →
      (∀ b ∈ bs, ops.HasBlock c' b.hash b.NumberU64 = true)
      ∧ (∀ h n, ops.HasBlock c h n = true → ops.HasBlock c' h n = true)) :
    ∀ (fuel : Nat) (blocks : List Block) (chain : σ) (inserted : List (List Block))
      (batch index : Nat) (r : ImportResult σ),
      importBatches ops fuel chain inserted batch index (blocks.map Except.ok) = some r →
      r.ok = true →
      (∀ b ∈ blocks, ops.HasBlock r.chain b.hash b.NumberU64 = true)
      ∧ (∀ h n, ops.HasBlock chain h n = true → ops.HasBlock r.chain h n = true) := by
  intro fuel
  induction fuel with
  | zero => intro blocks chain inserted batch index r hrun; simp [importBatches] at hrun
  | succ fuel ih =>
    intro blocks chain inserted batch index r hrun hok
    rw [importBatches, loadBatch_take] at hrun
    by_cases hempty : (blocks.take batchCap).length = 0
    · simp only [hempty, if_true, Option.some.injEq] at hrun
      subst hrun
      have hnil : blocks = [] := by
        cases blocks with
        | nil => rfl
        | cons b bs => simp [batchCap] at hempty
      subst hnil
      exact ⟨by simp, fun h n hp => hp⟩
    · simp only [hempty, if_false] at hrun
      have hmem : ∀ b ∈ blocks, b ∈ blocks.take batchCap ∨ b ∈ blocks.drop batchCap := by
        intro b hb
        rw [← List.mem_append, List.take_append_drop]
        exact hb
      by_cases hhas : hasAllBlocks ops chain (blocks.take batchCap) = true
      · simp only [hhas, if_true] at hrun
        obtain ⟨h1, h2⟩ := ih _ chain inserted _ _ r hrun hok
        refine ⟨?_, h2⟩
        intro b hb
        rcases hmem b hb with ht | hd
        · have hall : ∀ x ∈ blocks.take batchCap,
              ops.HasBlock chain x.hash x.NumberU64 = true := by
            simpa [hasAllBlocks] using hhas
          exact h2 _ _ (hall b ht)
        · exact h1 b hd
      · have hf : hasAllBlocks ops chain (blocks.take batchCap) = false := by simpa using hhas
        cases hcall : ops.InsertChain chain (blocks.take batchCap) with
        | mk chain' e =>
          cases e with
          | some cause =>
            simp only [hf, hcall, Bool.false_eq_true, if_false, Option.some.injEq] at hrun
            subst hrun
            simp at hok
          | none =>
            simp only [hf, hcall, Bool.false_eq_true, if_false] at hrun
            obtain ⟨h1, h2⟩ := ih _ chain' _ _ _ r hrun hok
            obtain ⟨h3, h4⟩ := hins chain _ chain' hcall
            refine ⟨?_, fun h n hp => h2 h n (h4 h n hp)⟩
            intro b hb
            rcases hmem b hb with ht | hd
            · exact h2 _ _ (h3 b ht)
            · exact h1 b hd

/-- Importing the same stream of decodable blocks a second time, after a
first run that succeeded, inserts nothing, leaves the store as the first run
left it and returns `(true, nil)`: for every store whose `InsertChain`, when it
succeeds, holds the blocks it was given and loses none it held. -/
theorem importChain_twice {σ : Type} (ops : ChainStore σ)
    (hins : ∀ c bs c', ops.InsertChain c bs = (c', none) →
      (∀ b ∈ bs, ops.HasBlock c' b.hash b.NumberU64 = true)
      ∧ (∀ h n, ops.HasBlock c h n = true → ops.HasBlock c' h n = true))
    (chain : σ) (blocks : List Block) (r : ImportResult σ)
    (hfirst : ImportChain ops chain (.ok (blocks.map Except.ok)) = some r)
    (hok : r.ok = true) :
    ImportChain ops r.chain (.ok (blocks.map Except.ok))
      = some ⟨true, none, r.chain, [], []⟩ := by
  unfold ImportChain at hfirst ⊢
  exact importBatches_present ops r.chain _ blocks [] 0 0 (by simp)
    (importBatches_all_present ops hins _ blocks chain [] 0 0 r hfirst hok).1

/-- The list store meets the condition of `importChain_twice`, and importing
blocks 1, 2, 3 into the empty list store twice inserts them once. -/
theorem importChain_twice_example :
    ImportChain listStore [] (.ok ((blocksUpTo 3).map Except.ok))
        = some ⟨true, none, blocksUpTo 3, [blocksUpTo 3], []⟩
    ∧ ImportChain listStore (blocksUpTo 3) (.ok ((blocksUpTo 3).map Except.ok))
        = some ⟨true, none, blocksUpTo 3, [], []⟩ :=
  ⟨rfl, importChain_twice listStore
    (by
      intro c bs c' h
      have hc : c' = c ++ bs := by
        simp only [listStore, Prod.mk.injEq, and_true] at h
        exact h.symm
      subst hc
      constructor
      · intro b hb
        simp only [listStore, List.any_append, List.any_eq_true, Bool.or_eq_true]
        exact Or.inr ⟨b, hb, by simp⟩
      · intro h n hp
        simp only [listStore, List.any_append, Bool.or_eq_true] at hp ⊢
        exact Or.inl hp)
    [] (blocksUpTo 3) ⟨true, none, blocksUpTo 3, [blocksUpTo 3], []⟩ rfl rfl⟩

/-! ## Preimages and malformed values in a page -/

theorem decodes_eq_true_of_ok (split : Bytes → Except String Bytes) (v c : Bytes)
    (h : split v = .ok c) : decodes split v = true := by
  simp [decodes, h]

/-- The loop of `storageRangeAt` on any iterator: it stops with the error of the
first value among those the counter allows that fails to decode, and otherwise
assigns one binding per leaf, for as many leaves as the counter allows. -/
theorem storageRangeLoop_eq (split : Bytes → Except String Bytes) (st : Trie)
    (maxResult : Int) :
    ∀ (it : List Leaf) (i : Nat) (m : storageMap),
      storageRangeLoop split st maxResult i it m
        = match (it.take (maxResult.toNat - i)).find? (fun e => !decodes split e.2) with
          | some e => .error (errorOf split e.2)
          | none =>
            .ok ((it.take (maxResult.toNat - i)).foldl
                  (fun acc e => acc.set (BytesToHash e.1) (entryOf split st e)) m,
                 it.drop (maxResult.toNat - i)) := by
  intro it
  induction it with
  | nil => intro i m; simp [storageRangeLoop]
  | cons e it ih =>
    intro i m
    obtain ⟨k, v⟩ := e
    by_cases hlt : (i : Int) < maxResult
    · have hi : i < maxResult.toNat := Int.lt_toNat.mpr hlt
      have hsub : maxResult.toNat - i = (maxResult.toNat - (i + 1)) + 1 := by omega
      rw [hsub]
      simp only [List.take_succ_cons, List.drop_succ_cons, List.find?_cons, List.foldl_cons]
      cases hs : split v with
      | error cause =>
        have hd : decodes split v = false := by simp [decodes, hs]
        simp [storageRangeLoop, hlt, hs, hd, errorOf]
      | ok content =>
        have hd : decodes split v = true := decodes_eq_true_of_ok split v content hs
        have hentry : entryOf split st (k, v)
            = ⟨(st.GetKey k).map BytesToHash, BytesToHash content⟩ := by
          simp [entryOf, contentOf, hs]
        simp only [storageRangeLoop, hlt, if_true, hs, hd, Bool.not_true, ih, hentry]
    · have hi : maxResult.toNat - i = 0 := by
        have : ¬ i < maxResult.toNat := fun h => hlt (Int.lt_toNat.mp h)
        omega
      simp [storageRangeLoop, hlt, hi]

/-- The result of `storageRangeAt` on any trie, by the first value of the page
that fails to decode. -/
theorem storageRangeAt_eq (split : Bytes → Except String Bytes) (st : Trie) (start : Bytes)
    (maxResult : Int) :
    storageRangeAt split st start maxResult
      = match ((st.seek start).take maxResult.toNat).find? (fun e => !decodes split e.2) with
        | some e => (⟨[], none⟩, some (.lib (errorOf split e.2)))
        | none =>
          (⟨((st.seek start).take maxResult.toNat).foldl
              (fun acc e => acc.set (BytesToHash e.1) (entryOf split st e)) [],
            (((st.seek start).drop maxResult.toNat).head?).map (fun e => BytesToHash e.1)⟩,
           none) := by
  unfold storageRangeAt
  rw [storageRangeLoop_eq]
  simp only [Nat.sub_zero]
  cases hf : ((st.seek start).take maxResult.toNat).find? (fun e => !decodes split e.2) with
  | some e => rfl
  | none =>
    cases hd : (st.seek start).drop maxResult.toNat with
    | nil => rfl
    | cons e rest => rfl

/-- C11. On a well-formed storage trie, when the values of the page decode:
every leaf of the page is in `Storage` under its internal key, whether or not
it has a preimage; the `Key` of an entry is the recorded preimage of its
internal key as a hash, so it is nil exactly when the trie records no preimage
for that key; and whatever preimages are recorded, none or all, the call does
not fail and returns the same internal keys and the same `NextKey`. -/
theorem storageRangeAt_missing_preimage (split : Bytes → Except String Bytes) (st : Trie)
    (hwf : st.WF) (start : Bytes) (maxResult : Int)
    (hdec : ∀ e ∈ (st.range start).take (min maxResult.toNat (st.range start).length),
      decodes split e.2 = true) :
    (storageRangeAt split st start maxResult).2 = none
    ∧ (storageRangeAt split st start maxResult).1.Storage.map Prod.fst
        = ((st.range start).take (min maxResult.toNat (st.range start).length)).map Prod.fst
    ∧ (∀ b ∈ (storageRangeAt split st start maxResult).1.Storage,
        b.2.Key = (st.GetKey b.1).map BytesToHash
        ∧ (b.2.Key = none ↔ st.GetKey b.1 = none))
    ∧ (∀ GetKey' : Bytes → Option Bytes,
        (storageRangeAt split ⟨st.leaves, GetKey'⟩ start maxResult).2 = none
        ∧ (storageRangeAt split ⟨st.leaves, GetKey'⟩ start maxResult).1.Storage.map Prod.fst
            = (storageRangeAt split st start maxResult).1.Storage.map Prod.fst
        ∧ (storageRangeAt split ⟨st.leaves, GetKey'⟩ start maxResult).1.NextKey
            = (storageRangeAt split st start maxResult).1.NextKey) := by
  have htake : (st.range start).take (min maxResult.toNat (st.range start).length)
      = (st.range start).take maxResult.toNat := by
    rw [List.take_eq_take]
    simp
  rw [htake] at hdec ⊢
  have hpage : ∀ g : Bytes → Option Bytes,
      storageRangeAt split ⟨st.leaves, g⟩ start maxResult
        = (⟨((st.range start).take maxResult.toNat).map
              (fun e => (e.1, entryOf split ⟨st.leaves, g⟩ e)),
            ((st.range start).drop maxResult.toNat).head?.map Prod.fst⟩, none) := by
    intro g
    have hwf' : (⟨st.leaves, g⟩ : Trie).WF := hwf
    have hseek : (⟨st.leaves, g⟩ : Trie).seek start = st.range start :=
      seek_eq_filter ⟨st.leaves, g⟩ hwf' start
    have := storageRangeAt_page split ⟨st.leaves, g⟩ hwf' start maxResult
      (by rw [hseek]; exact fun e he => exists_ok_of_decodes split e.2 (hdec e he))
    rw [hseek] at this
    exact this
  have hself : storageRangeAt split st start maxResult
      = (⟨((st.range start).take maxResult.toNat).map (fun e => (e.1, entryOf split st e)),
          ((st.range start).drop maxResult.toNat).head?.map Prod.fst⟩, none) :=
    hpage st.GetKey
  refine ⟨by rw [hself], by rw [hself]; simp [List.map_map, Function.comp_def], ?_, ?_⟩
  · intro b hb
    rw [hself] at hb
    obtain ⟨e, _, rfl⟩ := List.mem_map.mp hb
    simp [entryOf]
  · intro g
    rw [hpage g, hself]
    simp [List.map_map, Function.comp_def]

/-- C11 at the trie with keys 1, 2, 3, of which only key 1 has a preimage: the
page holds all three keys, key 1 with its preimage and keys 2 and 3 with a nil
`Key`. -/
theorem storageRangeAt_missing_preimage_witness :
    trie3.WF
    ∧ (∀ e ∈ (trie3.range []).take (min (3 : Int).toNat (trie3.range []).length),
        decodes splitAny e.2 = true)
    ∧ storageRangeAt splitAny trie3 [] 3
        = (⟨[(key32 1, ⟨some (key32 201), BytesToHash [11]⟩),
             (key32 2, ⟨none, BytesToHash [12]⟩),
             (key32 3, ⟨none, BytesToHash [13]⟩)], none⟩, none)
    ∧ (storageRangeAt splitAny trie3 [] 3).1.Storage.map Prod.fst
        = ((trie3.range []).take (min (3 : Int).toNat (trie3.range []).length)).map Prod.fst :=
  ⟨trie3_wf, by decide, by decide,
    (storageRangeAt_missing_preimage splitAny trie3 trie3_wf [] 3 (by decide)).2.1⟩

/-- C12. For every trie, start key and `maxResult`, the page being the first
`max maxResult 0` leaves the iterator yields from `start`: if the value of a
leaf of the page fails to decode, `storageRangeAt` returns the error of the
first such value together with the empty `StorageRangeResult`, no entry and no
`NextKey`; and if every value of the page decodes, it returns no error. -/
theorem storageRangeAt_decode_failure (split : Bytes → Except String Bytes) (st : Trie)
    (start : Bytes) (maxResult : Int) :
    ((∃ e ∈ (st.seek start).take maxResult.toNat, decodes split e.2 = false) →
      ∃ e ∈ (st.seek start).take maxResult.toNat,
        ((st.seek start).take maxResult.toNat).find? (fun x => !decodes split x.2) = some e
        ∧ split e.2 = .error (errorOf split e.2)
        ∧ storageRangeAt split st start maxResult
            = (⟨[], none⟩, some (.lib (errorOf split e.2))))
    ∧ ((∀ e ∈ (st.seek start).take maxResult.toNat, decodes split e.2 = true) →
      (storageRangeAt split st start maxResult).2 = none) := by
  rw [storageRangeAt_eq]
  constructor
  · rintro ⟨e, he, hbad⟩
    cases hf : ((st.seek start).take maxResult.toNat).find? (fun x => !decodes split x.2) with
    | none =>
      have := List.find?_eq_none.mp hf e he
      simp [hbad] at this
    | some x =>
      have hx : decodes split x.2 = false := by simpa using List.find?_some hf
      refine ⟨x, List.mem_of_find?_eq_some hf, rfl, ?_, rfl⟩
      unfold decodes at hx
      unfold errorOf
      cases hs : split x.2 with
      | ok c => simp [hs] at hx
      | error c => rfl
  · intro hall
    cases hf : ((st.seek start).take maxResult.toNat).find? (fun x => !decodes split x.2) with
    | none => rfl
    | some x =>
      have hx : decodes split x.2 = false := by simpa using List.find?_some hf
      have := hall x (List.mem_of_find?_eq_some hf)
      rw [hx] at this
      exact absurd this (by decide)

/-- C12 at the trie whose second value is malformed: a page of three entries
fails with the error of that value and returns nothing, not even the first
entry; a page of one entry, which the malformed value is not in, succeeds. -/
theorem storageRangeAt_decode_failure_witness :
    (∃ e ∈ (trieBad.seek []).take (3 : Int).toNat, decodes splitAny e.2 = false)
    ∧ storageRangeAt splitAny trieBad [] 3 = (⟨[], none⟩, some (.lib "unexpected EOF"))
    ∧ (∃ e ∈ (trieBad.seek []).take (3 : Int).toNat,
        ((trieBad.seek []).take (3 : Int).toNat).find? (fun x => !decodes splitAny x.2) = some e
        ∧ splitAny e.2 = .error (errorOf splitAny e.2)
        ∧ storageRangeAt splitAny trieBad [] 3
            = (⟨[], none⟩, some (.lib (errorOf splitAny e.2))))
    ∧ storageRangeAt splitAny trieBad [] 1
        = (⟨[(key32 1, ⟨none, BytesToHash [11]⟩)], some (key32 2)⟩, none) :=
  ⟨⟨(key32 2, []), by decide, by decide⟩, by decide,
    (storageRangeAt_decode_failure splitAny trieBad [] 3).1
      ⟨(key32 2, []), by decide, by decide⟩,
    by decide⟩

/-! ## The batching rule of the import -/

theorem chunks_nil (cap : Nat) (hcap : 0 < cap) : chunks cap [] = [] := by
  have : (cap - 1) / cap = 0 := Nat.div_eq_of_lt (by omega)
  simp [chunks, this]

theorem chunks_count_succ (cap len : Nat) (hcap : 0 < cap) (hlen : 0 < len) :
    (len + cap - 1) / cap = (len - cap + cap - 1) / cap + 1 := by
  by_cases h : len ≤ cap
  · have h1 : len + cap - 1 = (len - 1) + cap := by omega
    have h2 : len - cap + cap - 1 = cap - 1 := by omega
    rw [h1, h2, Nat.add_div_right _ hcap, Nat.div_eq_of_lt (by omega : len - 1 < cap),
      Nat.div_eq_of_lt (by omega : cap - 1 < cap)]
  · have h1 : len + cap - 1 = (len - cap + cap - 1) + cap := by omega
    rw [h1, Nat.add_div_right _ hcap]

/-- The chunks of a non-empty sequence: its first `cap` blocks, then the chunks
of the rest. -/
theorem chunks_cons (cap : Nat) (hcap : 0 < cap) (blocks : List Block) (hne : blocks ≠ []) :
    chunks cap blocks = blocks.take cap :: chunks cap (blocks.drop cap) := by
  have hlen : 0 < blocks.length := List.length_pos.mpr hne
  unfold chunks
  rw [chunks_count_succ cap blocks.length hcap hlen, List.length_drop,
    List.range_succ_eq_map, List.map_cons, List.map_map]
  congr 1
  · simp
  · apply List.map_congr_left
    intro n _
    simp only [Function.comp, List.drop_drop]
    congr 2
    rw [Nat.succ_mul]
    omega

theorem chunks_flatten (cap : Nat) (hcap : 0 < cap) :
    ∀ (n : Nat) (blocks : List Block), blocks.length ≤ n → (chunks cap blocks).flatten = blocks := by
  intro n
  induction n with
  | zero =>
    intro blocks h
    have : blocks = [] := List.length_eq_zero.mp (by omega)
    subst this
    simp [chunks_nil cap hcap]
  | succ n ih =>
    intro blocks h
    by_cases hne : blocks = []
    · subst hne; simp [chunks_nil cap hcap]
    · have hlen : 0 < blocks.length := List.length_pos.mpr hne
      rw [chunks_cons cap hcap blocks hne, List.flatten_cons,
        ih (blocks.drop cap) (by rw [List.length_drop]; omega), List.take_append_drop]

/-- Chunk `n` of a sequence, when there is one, is not empty and has `cap`
blocks at most, and exactly `cap` when it is not the last chunk. -/
theorem chunks_shape (cap : Nat) (hcap : 0 < cap) (blocks : List Block) (n : Nat)
    (c : List Block) (hc : (chunks cap blocks)[n]? = some c) :
    c = (blocks.drop (n * cap)).take cap ∧ 0 < c.length ∧ c.length ≤ cap
    ∧ (n + 1 < (chunks cap blocks).length → c.length = cap) := by
  have hn : n < (blocks.length + cap - 1) / cap := by
    have := (List.getElem?_eq_some_iff.mp hc).1
    simpa [chunks] using this
  have hceq : c = (blocks.drop (n * cap)).take cap := by
    have := (List.getElem?_eq_some_iff.mp hc).2
    simp [chunks] at this
    exact this.symm
  have hmul : (n + 1) * cap ≤ blocks.length + cap - 1 :=
    (Nat.le_div_iff_mul_le hcap).mp hn
  rw [Nat.succ_mul] at hmul
  refine ⟨hceq, ?_, ?_, ?_⟩
  · rw [hceq, List.length_take, List.length_drop]
    exact Nat.lt_min.mpr ⟨hcap, by omega⟩
  · rw [hceq, List.length_take]
    exact Nat.min_le_left _ _
  · intro hnext
    have hn2 : n + 1 < (blocks.length + cap - 1) / cap := by simpa [chunks] using hnext
    have hmul2 : (n + 1 + 1) * cap ≤ blocks.length + cap - 1 :=
      (Nat.le_div_iff_mul_le hcap).mp hn2
    rw [Nat.succ_mul, Nat.succ_mul] at hmul2
    rw [hceq, List.length_take, List.length_drop]
    exact Nat.min_eq_left (by omega)

/-- The outer loop on a stream of decodable blocks follows the batching rule
over the chunks of the stream, as long as no insertion fails. -/
theorem importBatches_rule {σ : Type} (ops : ChainStore σ) :
    ∀ (fuel : Nat) (blocks : List Block), blocks.length < fuel →
      ∀ (chain : σ) (inserted : List (List Block)) (batch index : Nat) (chain' : σ)
        (inserted' : List (List Block)),
        batchingRule ops chain inserted (chunks batchCap blocks) = some (chain', inserted') →
        importBatches ops fuel chain inserted batch index (blocks.map Except.ok)
          = some ⟨true, none, chain', inserted', []⟩ := by
  have hcap : 0 < batchCap := by decide
  intro fuel
  induction fuel with
  | zero => intro blocks h; omega
  | succ fuel ih =>
    intro blocks hfuel chain inserted batch index chain' inserted' hrule
    rw [importBatches, loadBatch_take]
    by_cases hne : blocks = []
    · subst hne
      rw [chunks_nil batchCap hcap] at hrule
      simp only [batchingRule, Option.some.injEq, Prod.mk.injEq] at hrule
      obtain ⟨h1, h2⟩ := hrule
      subst h1 h2
      simp
    · have hlen : 0 < blocks.length := List.length_pos.mpr hne
      have hempty : ¬ (blocks.take batchCap).length = 0 := by
        rw [List.length_take]
        have := Nat.lt_min.mpr ⟨hcap, hlen⟩
        omega
      have hrest : (blocks.drop batchCap).length < fuel := by
        rw [List.length_drop]
        have : 0 < batchCap := hcap
        omega
      rw [chunks_cons batchCap hcap blocks hne] at hrule
      simp only [hempty, if_false]
      by_cases hhas : hasAllBlocks ops chain (blocks.take batchCap) = true
      · simp only [batchingRule, hhas, if_true] at hrule ⊢
        exact ih _ hrest chain inserted _ _ chain' inserted' hrule
      · have hf : hasAllBlocks ops chain (blocks.take batchCap) = false := by simpa using hhas
        cases hins : ops.InsertChain chain (blocks.take batchCap) with
        | mk chain1 e =>
          cases e with
          | some cause =>
            simp [batchingRule, hf, hins] at hrule
          | none =>
            simp only [batchingRule, hf, hins, Bool.false_eq_true, if_false] at hrule ⊢
            exact ih _ hrest chain1 _ _ _ chain' inserted' hrule

/-- C13. For every stream of decodable blocks on which no `InsertChain` call
of the batching rule fails: the batches are the consecutive chunks of the
decoded sequence, in stream order, non-empty, of 2500 blocks at most and of
exactly 2500 but for the last; `ImportChain` discards a chunk whose blocks are
all in the store when it is checked and hands any other chunk whole to
`InsertChain`, once, so that the store it ends in and the chunks it inserted
are those of the batching rule; and it reads the whole stream and returns
`(true, nil)`. -/
theorem importChain_batching {σ : Type} (ops : ChainStore σ) (chain : σ) (blocks : List Block)
    (chain' : σ) (inserted : List (List Block))
    (hrule : batchingRule ops chain [] (chunks batchCap blocks) = some (chain', inserted)) :
    ImportChain ops chain (.ok (blocks.map Except.ok))
      = some ⟨true, none, chain', inserted, []⟩
    ∧ (chunks batchCap blocks).flatten = blocks
    ∧ (∀ n c, (chunks batchCap blocks)[n]? = some c →
        c = (blocks.drop (n * 2500)).take 2500 ∧ 0 < c.length ∧ c.length ≤ 2500
        ∧ (n + 1 < (chunks batchCap blocks).length → c.length = 2500)) := by
  have hcap : 0 < batchCap := by decide
  refine ⟨?_, chunks_flatten batchCap hcap _ blocks (le_refl _), ?_⟩
  · unfold ImportChain
    exact importBatches_rule ops _ blocks (by simp) chain [] 0 0 chain' inserted hrule
  · intro n c hc
    exact chunks_shape batchCap hcap blocks n c hc

/-- A store all of whose insertions succeed meets the condition of the batching
rule on every sequence of chunks. -/
theorem batchingRule_of_inserts_succeed {σ : Type} (ops : ChainStore σ)
    (hins : ∀ c bs, (ops.InsertChain c bs).2 = none) :
    ∀ (cs : List (List Block)) (chain : σ) (inserted : List (List Block)),
      ∃ r, batchingRule ops chain inserted cs = some r := by
  intro cs
  induction cs with
  | nil => intro chain inserted; exact ⟨_, rfl⟩
  | cons c cs ih =>
    intro chain inserted
    by_cases hhas : hasAllBlocks ops chain c = true
    · simp only [batchingRule, hhas, if_true]
      exact ih chain inserted
    · have hf : hasAllBlocks ops chain c = false := by simpa using hhas
      cases hcall : ops.InsertChain chain c with
      | mk chain1 e =>
        have := hins chain c
        rw [hcall] at this
        simp only at this
        subst this
        simp only [batchingRule, hf, hcall, Bool.false_eq_true, if_false]
        exact ih chain1 _

theorem blocksUpTo_succ (n : Nat) : blocksUpTo (n + 1) = blocksUpTo n ++ [mkBlock (n + 1)] := by
  simp [blocksUpTo, List.range_succ]

/-- The blocks 1 to 2501 make two chunks: the blocks 1 to 2500, and block 2501. -/
theorem chunks_blocksUpTo_2501 :
    chunks batchCap (blocksUpTo 2501) = [blocksUpTo 2500, [mkBlock 2501]] := by
  have hcap : 0 < batchCap := by decide
  have hne : blocksUpTo 2501 ≠ [] := by
    intro h
    have := blocksUpTo_length 2501
    rw [h] at this
    simp at this
  have h1 : (blocksUpTo 2501).take batchCap = blocksUpTo 2500 := by
    rw [blocksUpTo_succ]
    exact List.take_left' (blocksUpTo_length 2500)
  have h2 : (blocksUpTo 2501).drop batchCap = [mkBlock 2501] := by
    rw [blocksUpTo_succ]
    exact List.drop_left' (blocksUpTo_length 2500)
  rw [chunks_cons batchCap hcap _ hne, h1, h2,
    chunks_cons batchCap hcap [mkBlock 2501] (by simp)]
  simp [batchCap, chunks_nil 2500 (by decide)]

theorem listStore_has (chain : List Block) (b : Block) (hb : b ∈ chain) :
    listStore.HasBlock chain b.hash b.NumberU64 = true := by
  simp only [listStore, List.any_eq_true]
  exact ⟨b, hb, by simp⟩

/-- The batching rule on the two chunks of the blocks 1 to 2501, in the list
store holding the blocks 1 to 2500: the first chunk is discarded, the second is
inserted. -/
theorem batchingRule_blocksUpTo_2501 :
    batchingRule listStore (blocksUpTo 2500) [] [blocksUpTo 2500, [mkBlock 2501]]
      = some (blocksUpTo 2500 ++ [mkBlock 2501], [[mkBlock 2501]]) := by
  have htrue : hasAllBlocks listStore (blocksUpTo 2500) (blocksUpTo 2500) = true :=
    hasAllBlocks_of_forall listStore _ _ (fun b hb => listStore_has _ b hb)
  have hfalse : hasAllBlocks listStore (blocksUpTo 2500) [mkBlock 2501] = false := by
    simp only [hasAllBlocks, List.all_cons, List.all_nil, Bool.and_true, listStore]
    rw [Bool.eq_false_iff]
    intro h
    rw [List.any_eq_true] at h
    obtain ⟨x, hx, hxe⟩ := h
    obtain ⟨i, hi, rfl⟩ := List.mem_map.mp hx
    have hi' : i < 2500 := List.mem_range.mp hi
    simp [mkBlock] at hxe
    omega
  simp only [batchingRule, htrue, hfalse, if_true, Bool.false_eq_true, if_false]
  rfl

theorem batchingRule_chunks_2501 :
    batchingRule listStore (blocksUpTo 2500) [] (chunks batchCap (blocksUpTo 2501))
      = some (blocksUpTo 2500 ++ [mkBlock 2501], [[mkBlock 2501]]) := by
  rw [chunks_blocksUpTo_2501]
  exact batchingRule_blocksUpTo_2501

/-- C13 at the list store holding the blocks 1 to 2500, on the stream of the
blocks 1 to 2501: the first batch, of 2500 blocks, is discarded, and the
second, block 2501 alone, is inserted by the one `InsertChain` call. -/
theorem importChain_batching_witness :
    batchingRule listStore (blocksUpTo 2500) [] (chunks batchCap (blocksUpTo 2501))
        = some (blocksUpTo 2500 ++ [mkBlock 2501], [[mkBlock 2501]])
    ∧ ImportChain listStore (blocksUpTo 2500) (.ok ((blocksUpTo 2501).map Except.ok))
        = some ⟨true, none, blocksUpTo 2500 ++ [mkBlock 2501], [[mkBlock 2501]], []⟩ :=
  ⟨batchingRule_chunks_2501,
    (importChain_batching listStore (blocksUpTo 2500) (blocksUpTo 2501)
      (blocksUpTo 2500 ++ [mkBlock 2501]) [[mkBlock 2501]] batchingRule_chunks_2501).1⟩

/-- The batching rule on a stream of one short chunk: the list store holds
blocks 1 and 2, the stream is blocks 1, 2, 3, and the chunk of the three is
inserted whole. -/
theorem importChain_batching_small :
    batchingRule listStore (blocksUpTo 2) [] (chunks batchCap (blocksUpTo 3))
        = some (blocksUpTo 2 ++ blocksUpTo 3, [blocksUpTo 3])
    ∧ ImportChain listStore (blocksUpTo 2) (.ok ((blocksUpTo 3).map Except.ok))
        = some ⟨true, none, blocksUpTo 2 ++ blocksUpTo 3, [blocksUpTo 3], []⟩ :=
  ⟨by decide, rfl⟩

end Cph
